import Mathlib

/-!
Verification development for the `qr-video-extractor` repository.

This file gives a shallow embedding, in Lean 4, of the parts of the Rust
source that the specification claims talk about:

* the packet-oriented fountain decoder of `src/decode_qr_files.rs`
  (`FountainDecoder`: systematic ingest, XOR peeling, finalization with
  FNV-1a checksum verification and file emission);
* the multiplexing decoder of `src/main.rs` (`FountainDecoder` /
  `FileDecoder`: temporal routing by an active-file slot, packet parsing,
  file reconstruction and its checksum);
* the chunk-completion criteria of `src/completion_detector.rs`;
* the streaming deduplication set of `src/main.rs` (`extract_streaming`);
* the chunk planning of `src/video.rs` (`split_by_count`,
  `split_by_duration`).

Modelling conventions:

* Rust strings and byte buffers are modelled as `List Nat` (`Bytes`), one
  entry per byte; all packet payloads in this protocol are ASCII.
* Rust `u32`/`u64`/`usize` arithmetic is `Nat` with an explicit
  `% 2 ^ 32` (resp. a `< 2 ^ 64` overflow check in integer parsing) at the
  places where the Rust code can wrap or reject.
* `HashMap<usize, Vec<u8>>` is an association list `List (Nat × Bytes)`;
  every insertion performed by the embedded code paths is guarded by a
  preceding absence check exactly as in the source, so consing is
  observationally the map update of the source.
* File-system effects are recorded as an explicit trace of `FsOp`
  operations, in the order the Rust code performs them.
* `f64` ratio comparisons (completion detector) are modelled as exact
  rational comparisons; the IEEE-754 special case `x / 0.0` is modelled
  explicitly where the source can reach it.  Time arithmetic of the chunk
  planner is modelled over `ℚ`.
-/

/-! ## Bytes and small helpers -/

/-- A Rust byte buffer (`Vec<u8>` or the bytes of a `&str`), one `Nat` per
byte. -/

abbrev Bytes := List Nat

/-- The byte string of an ASCII Lean string literal, used to write down
concrete packets. -/

def strBytes (s : String) : Bytes := s.data.map Char.toNat

/-- Byte-wise XOR of `a` with `b`, limited to the first
`min a.length b.length` bytes; the remaining tail of `a` is kept
unchanged.  This embeds the loops
`for j in 0..result.len().min(chunk.len()) { result[j] ^= chunk[j] }`
(`decode_qr_files.rs`, `process_coded`) and `FileDecoder::xor_data`
(`main.rs`), both of which mutate `a` in place over the common prefix. -/

def xorBytes (a b : Bytes) : Bytes :=
  List.zipWith Nat.xor a b ++ a.drop b.length

/-- FNV-1a, 32 bits: offset basis `0x811C9DC5`, prime `0x01000193`,
with `u32` wrap-around multiplication (`hash.wrapping_mul(16777619)`). -/

def fnv1a32 (data : Bytes) : Nat :=
  data.foldl (fun h b => ((Nat.xor h b) * 16777619) % 4294967296) 2166136261

/-- Lowercase hexadecimal rendering of a number, as ASCII bytes, without
padding — the bytes of Rust `format!("\x7b:x\x7d", hash)`. -/

def hexBytes (n : Nat) : Bytes := (Nat.toDigits 16 n).map Char.toNat

/-- Look up a key in an association-list map (`HashMap` lookup). -/

def lookupChunk (m : List (Nat × Bytes)) (k : Nat) : Option Bytes :=
  match m with
  | [] => none
  | (k', v) :: rest => if k = k' then some v else lookupChunk rest k

/-- Map insertion; every call site in the embedded code first checks the
key is absent, as the Rust source does, so this matches `HashMap::insert`
observationally. -/

def insertChunk (m : List (Nat × Bytes)) (k : Nat) (v : Bytes) :
    List (Nat × Bytes) :=
  (k, v) :: m

/-! ## File-system effect traces -/

/-- One file-system side effect performed by an emission path, recorded in
program order. -/

inductive FsOp where
  | createDirAll (path : Bytes)
  | writeFile (path : Bytes) (data : Bytes)
  | renamePath (src : Bytes) (dst : Bytes)
  deriving DecidableEq, Repr

/-- `PathBuf::from(dir).join(name)`: the joined output path. -/

def joinPath (dir name : Bytes) : Bytes := dir ++ [47] ++ name

/-! ## `decode_qr_files.rs`: `FountainDecoder`

The per-file fountain decoder: systematic ingest (`add_packet`), the XOR
peeling loop (`process_coded`), completion (`is_complete`) and
finalization (`finalize` / `calculate_checksum`). -/

/-- A stored coded packet (`DataPacket` with `xor_data: Some(..)`); only
packets whose `xor_data` is present are ever pushed onto `coded_packets`,
so the stored form carries the payload directly. -/

structure CodedP where
  packetId : Nat
  sourceChunks : List Nat
  xorData : Bytes
  deriving DecidableEq, Repr

/-- A parsed data packet (`DataPacket` of `decode_qr_files.rs`). -/

structure DPacket where
  packetId : Nat
  sourceChunks : List Nat
  systematicChunks : List (Nat × Bytes)
  xorData : Option Bytes
  deriving DecidableEq, Repr

/-- `FileMetadata` of `decode_qr_files.rs` (the `version`/`file_type`
strings are carried but uninterpreted). -/

structure FMeta where
  version : Bytes
  fileName : Bytes
  fileType : Bytes
  fileSize : Nat
  chunksCount : Nat
  fileChecksum : Option Bytes
  deriving DecidableEq, Repr

/-- `FountainDecoder` state of `decode_qr_files.rs`. -/

structure FState where
  initialized : Bool
  metaData : Option FMeta
  totalChunks : Nat
  sourceChunks : List (Nat × Bytes)
  recoveredChunkCount : Nat
  codedPackets : List CodedP
  deriving DecidableEq, Repr

/-- `FountainDecoder::new`. -/

def FState.new : FState :=
  { initialized := false, metaData := none, totalChunks := 0,
    sourceChunks := [], recoveredChunkCount := 0, codedPackets := [] }

/-- `FountainDecoder::initialize`. -/

def initializeF (metadata : FMeta) : FState :=
  { initialized := true, metaData := some metadata,
    totalChunks := metadata.chunksCount, sourceChunks := [],
    recoveredChunkCount := 0, codedPackets := [] }

/-- The indices of `p.source_chunks` missing from the received map — the
`missing` vector computed at the top of the peeling scan. -/

def missingOf (sc : List (Nat × Bytes)) (p : CodedP) : List Nat :=
  p.sourceChunks.filter (fun i => (lookupChunk sc i).isNone)

/-- The recovered value for the unique missing index `m` of packet `p`:
the XOR payload folded, in `source_chunks` order, with every known chunk
at an index other than `m` (`result[j] ^= chunk[j]` over the common
prefix). -/

def peelFun (sc : List (Nat × Bytes)) (r : Bytes) (idx : Nat) : Bytes :=
  match lookupChunk sc idx with
  | some c => xorBytes r c
  | none => r

def peelValue (sc : List (Nat × Bytes)) (p : CodedP) (m : Nat) : Bytes :=
  p.sourceChunks.foldl
    (fun r idx => if idx = m then r else peelFun sc r idx) p.xorData

/-- Accumulator of one scan of the peeling loop: the received map, the
recovered counter, the packets kept so far and the progress flag. -/

structure ScanAcc where
  sc : List (Nat × Bytes)
  cnt : Nat
  kept : List CodedP
  prog : Bool
  deriving Repr

/-- One packet examined by the scan of `process_coded`: exactly one
missing index recovers it and removes the packet (progress); no missing
index silently removes the packet; otherwise the packet is kept. -/

def scanStep (acc : ScanAcc) (p : CodedP) : ScanAcc :=
  match missingOf acc.sc p with
  | [m] =>
      { acc with sc := insertChunk acc.sc m (peelValue acc.sc p m),
                 cnt := acc.cnt + 1, prog := true }
  | [] => acc
  | _ => { acc with kept := p :: acc.kept }

/-- One full scan of `process_coded`: the Rust loop walks the vector from
the last index down to 0, removing in place, so each original packet is
examined exactly once, later-indexed packets first, and the kept packets
stay in their original relative order. -/

def scanPass (sc : List (Nat × Bytes)) (cnt : Nat) (ps : List CodedP) :
    ScanAcc :=
  ps.reverse.foldl scanStep { sc := sc, cnt := cnt, kept := [], prog := false }

/-- The outer `while progress` loop of `process_coded`, with explicit
fuel; `processCodedAux_stable` below shows the fuel chosen by
`codedFuel` always suffices, so this is the loop of the source. -/

def processCodedAux :
    Nat → List (Nat × Bytes) → Nat → List CodedP →
      List (Nat × Bytes) × Nat × List CodedP
  | 0, sc, cnt, ps => (sc, cnt, ps)
  | fuel + 1, sc, cnt, ps =>
      let a := scanPass sc cnt ps
      if a.prog then processCodedAux fuel a.sc a.cnt a.kept
      else (a.sc, a.cnt, a.kept)

/-- Enough fuel for the peeling loop: every productive scan recovers at
least one chunk index occurring in some pending packet, so the total
number of source indices bounds the number of productive scans. -/

def codedFuel (ps : List CodedP) : Nat :=
  ps.foldl (fun n p => n + p.sourceChunks.length) 0 + 1

/-- `FountainDecoder::process_coded`. -/

def processCodedF (st : FState) : FState :=
  let r := processCodedAux (codedFuel st.codedPackets) st.sourceChunks
    st.recoveredChunkCount st.codedPackets
  { st with sourceChunks := r.1, recoveredChunkCount := r.2.1,
            codedPackets := r.2.2 }

/-- The systematic branch of `add_packet`: store each listed chunk that is
not already present and bump the recovered counter — note there is no
`index < chunks_count` guard here. -/

def addSystematicF (st : FState) (chunks : List (Nat × Bytes)) : FState :=
  chunks.foldl
    (fun s c =>
      if (lookupChunk s.sourceChunks c.1).isSome then s
      else
        { s with sourceChunks := insertChunk s.sourceChunks c.1 c.2,
                 recoveredChunkCount := s.recoveredChunkCount + 1 })
    st

/-- `FountainDecoder::add_packet`: `false` for an uninitialized decoder;
systematic chunks are stored directly; a packet with an XOR payload and no
systematic chunks is pushed onto `coded_packets` and the peeling loop
runs. -/

def addPacketF (st : FState) (p : DPacket) : FState × Bool :=
  if !st.initialized then (st, false)
  else if p.systematicChunks.isEmpty then
    match p.xorData with
    | some x =>
        (processCodedF
          { st with codedPackets :=
              st.codedPackets ++
                [{ packetId := p.packetId, sourceChunks := p.sourceChunks,
                   xorData := x }] },
         true)
    | none => (st, true)
  else (addSystematicF st p.systematicChunks, true)

/-- `FountainDecoder::is_complete`:
`recovered_chunk_count >= total_chunks`. -/

def isCompleteF (st : FState) : Bool :=
  st.totalChunks ≤ st.recoveredChunkCount

/-- The chunk-combining loop of `finalize`: chunks in ascending index
order, each copied up to the remaining distance to `file_size`, then a
final truncation to `file_size`. -/

def combineChunksF (st : FState) (fileSize : Nat) : Bytes :=
  ((List.range st.totalChunks).foldl
    (fun fd i =>
      match lookupChunk st.sourceChunks i with
      | some chunk =>
          let copyLength := min (fd.length + chunk.length) fileSize - fd.length
          fd ++ chunk.take (min copyLength chunk.length)
      | none => fd)
    []).take fileSize

/-- `FountainDecoder::calculate_checksum`: unpadded lowercase hex of the
FNV-1a 32-bit hash, truncated to the first 8 bytes. -/

def calculateChecksumF (data : Bytes) : Bytes :=
  let h := hexBytes (fnv1a32 data)
  h.take (min 8 h.length)

/-- `FountainDecoder::finalize`: the emitted file (if any) together with
the trace of file-system operations performed, in program order.  The
source unwraps `meta_data` after the completeness checks; a state with
`meta_data == None` would panic there and is modelled as no emission. -/

def finalizeF (st : FState) (outputDir : Bytes) :
    Option Bytes × List FsOp :=
  if ¬ isCompleteF st then (none, [])
  else if ¬ (List.range st.totalChunks).all
      (fun i => (lookupChunk st.sourceChunks i).isSome) then (none, [])
  else
    match st.metaData with
    | none => (none, [])
    | some md =>
        match md.fileChecksum with
        | some expected =>
            if calculateChecksumF (combineChunksF st md.fileSize) = expected
            then
              (some (combineChunksF st md.fileSize),
               [FsOp.createDirAll outputDir,
                FsOp.writeFile (joinPath outputDir md.fileName)
                  (combineChunksF st md.fileSize)])
            else (none, [])
        | none =>
            (some (combineChunksF st md.fileSize),
             [FsOp.createDirAll outputDir,
              FsOp.writeFile (joinPath outputDir md.fileName)
                (combineChunksF st md.fileSize)])

/-! ## `main.rs`: `FileDecoder`

The per-file decoder used by the multiplexing `FountainDecoder` of
`main.rs`: `add_packet`, `process_coded_packets` (forward scan with
deferred removal), `reconstruct_file`, `calculate_file_checksum` (which,
unlike `decode_qr_files.rs`, left-pads the hex rendering to 8 characters)
and `verify_jpeg_structure`. -/

/-- `FileMetadata` of `main.rs` (the `f64` fields `density`, `fps`,
`redundancy` are parsed for validity but their values are never used by
the decoder; they are not carried). -/

structure MMeta where
  version : Bytes
  fileName : Bytes
  fileType : Bytes
  fileSize : Nat
  chunksCount : Nat
  packetsCount : Nat
  maxDegree : Nat
  chunkSize : Nat
  fileChecksum : Option Bytes
  metaChecksum : Option Bytes
  deriving DecidableEq, Repr

/-- A parsed `DataPacket` of `main.rs`; `xor_data` is a plain vector
there (empty by default), not an `Option`. -/

structure MPacket where
  packetId : Nat
  numChunks : Nat
  chunkCount : Nat
  sourceChunks : List Nat
  xorData : Bytes
  systematicChunks : List (Nat × Bytes)
  deriving DecidableEq, Repr

/-- `packet.is_systematic = !systematic_data_chunks.is_empty()`. -/

def MPacket.isSystematic (p : MPacket) : Bool := !p.systematicChunks.isEmpty

/-- `FileDecoder` state of `main.rs`; `chunk_grid` is the display grid
(`Received` = `true`). -/

structure MFileDec where
  metadata : Option MMeta
  sourceChunks : List (Nat × Bytes)
  codedPackets : List CodedP
  recoveredChunkCount : Nat
  totalChunks : Nat
  chunkGrid : List Bool
  deriving DecidableEq, Repr

/-- Accumulator of one forward scan of `process_coded_packets`. -/

structure MScanAcc where
  sc : List (Nat × Bytes)
  cnt : Nat
  grid : List Bool
  kept : List CodedP
  prog : Bool
  deriving Repr

/-- One packet examined by the forward scan of `process_coded_packets`:
recover on exactly one missing index, drop on none missing, keep
otherwise; recovery also marks the chunk grid. -/

def mScanStep (acc : MScanAcc) (p : CodedP) : MScanAcc :=
  match missingOf acc.sc p with
  | [m] =>
      { acc with sc := insertChunk acc.sc m (peelValue acc.sc p m),
                 cnt := acc.cnt + 1, grid := acc.grid.set m true,
                 prog := true }
  | [] => acc
  | _ => { acc with kept := p :: acc.kept }

/-- One full forward scan of `process_coded_packets`: the source iterates
front to back, mutating `source_chunks` as it goes, collects the indices
to remove and removes them after the scan, so the kept packets stay in
order. -/

def mScanPass (sc : List (Nat × Bytes)) (cnt : Nat) (grid : List Bool)
    (ps : List CodedP) : MScanAcc :=
  let a := ps.foldl mScanStep
    { sc := sc, cnt := cnt, grid := grid, kept := [], prog := false }
  { a with kept := a.kept.reverse }

/-- The outer `while made_progress` loop of `process_coded_packets`, with
the same fuel policy as `processCodedAux`. -/

def mProcessCodedAux :
    Nat → List (Nat × Bytes) → Nat → List Bool → List CodedP →
      List (Nat × Bytes) × Nat × List Bool × List CodedP
  | 0, sc, cnt, grid, ps => (sc, cnt, grid, ps)
  | fuel + 1, sc, cnt, grid, ps =>
      let a := mScanPass sc cnt grid ps
      if a.prog then mProcessCodedAux fuel a.sc a.cnt a.grid a.kept
      else (a.sc, a.cnt, a.grid, a.kept)

/-- `FileDecoder::process_coded_packets`. -/

def mProcessCoded (d : MFileDec) : MFileDec :=
  let r := mProcessCodedAux (codedFuel d.codedPackets) d.sourceChunks
    d.recoveredChunkCount d.chunkGrid d.codedPackets
  { d with sourceChunks := r.1, recoveredChunkCount := r.2.1,
           chunkGrid := r.2.2.1, codedPackets := r.2.2.2 }

/-- The systematic branch of `FileDecoder::add_packet`: here (unlike
`decode_qr_files.rs`) indices are stored only when
`chunk_idx < total_chunks`. -/

def mAddSystematic (d : MFileDec) (chunks : List (Nat × Bytes)) : MFileDec :=
  chunks.foldl
    (fun s c =>
      if c.1 < s.totalChunks ∧ (lookupChunk s.sourceChunks c.1).isNone then
        { s with sourceChunks := insertChunk s.sourceChunks c.1 c.2,
                 recoveredChunkCount := s.recoveredChunkCount + 1,
                 chunkGrid := s.chunkGrid.set c.1 true }
      else s)
    d

/-- `FileDecoder::add_packet`. -/

def mAddPacket (d : MFileDec) (p : MPacket) : MFileDec :=
  if p.isSystematic then mAddSystematic d p.systematicChunks
  else
    mProcessCoded
      { d with codedPackets :=
          d.codedPackets ++
            [{ packetId := p.packetId, sourceChunks := p.sourceChunks,
               xorData := p.xorData }] }

/-- `FileDecoder::is_complete`. -/

def MFileDec.isComplete (d : MFileDec) : Bool :=
  d.totalChunks ≤ d.recoveredChunkCount

/-- ASCII lowercasing of a byte string (`str::to_lowercase` restricted to
ASCII, which is all the MIME strings of this protocol use). -/

def toLowerAscii (s : Bytes) : Bytes :=
  s.map (fun b => if 65 ≤ b ∧ b ≤ 90 then b + 32 else b)

/-- Does `s` start with the byte string `pre` (`str::starts_with`)? -/

def startsWithB (pre s : Bytes) : Bool := s.take pre.length = pre

/-- Substring containment on byte strings (`str::contains`). -/

def containsSub (hay needle : Bytes) : Bool :=
  (List.range (hay.length + 1)).any (fun i => startsWithB needle (hay.drop i))

/-- `FileDecoder::verify_jpeg_structure`: at least 4 bytes, leading
`FF D8`, trailing `FF D9`. -/

def verifyJpegStructure (data : Bytes) : Bool :=
  if data.length < 4 then false
  else
    (data.getD 0 0 = 255 ∧ data.getD 1 0 = 216) ∧
    2 ≤ data.length ∧
    data.getD (data.length - 2) 0 = 255 ∧ data.getD (data.length - 1) 0 = 217

/-- `FileDecoder::calculate_file_checksum`: lowercase hex of the FNV-1a
32-bit hash, **left-padded with `'0'` to 8 characters** when shorter
(`format!("\x7b:0>8\x7d", base36)`), otherwise truncated to 8. -/

def calculateFileChecksumM (data : Bytes) : Bytes :=
  let h := hexBytes (fnv1a32 data)
  if 8 ≤ h.length then h.take 8
  else List.replicate (8 - h.length) 48 ++ h

/-- The chunk concatenation of `FileDecoder::reconstruct_file`: all
chunks appended whole, in ascending index order, then truncated to
`file_size`. -/

def mCombine (d : MFileDec) (fileSize : Nat) : Bytes :=
  ((List.range d.totalChunks).foldl
    (fun fd i =>
      match lookupChunk d.sourceChunks i with
      | some chunk => fd ++ chunk
      | none => fd)
    []).take fileSize

/-- The checksum test of `reconstruct_file`: vacuous when the metadata
carries no checksum. -/

def mChecksumOk (d : MFileDec) (md : MMeta) : Bool :=
  match md.fileChecksum with
  | some expected => calculateFileChecksumM (mCombine d md.fileSize) = expected
  | none => true

/-- `FileDecoder::reconstruct_file`: `none` models the `Err` paths
(missing metadata, missing chunk, checksum mismatch, JPEG-structure
failure); `some data` is the reconstructed, truncated file. -/

def mReconstructFile (d : MFileDec) : Option Bytes :=
  match d.metadata with
  | none => none
  | some md =>
      if ¬ (List.range d.totalChunks).all
          (fun i => (lookupChunk d.sourceChunks i).isSome) then none
      else if ¬ mChecksumOk d md then none
      else if containsSub (toLowerAscii md.fileType) (strBytes "jpeg") ∧
          verifyJpegStructure (mCombine d md.fileSize) = false then none
      else some (mCombine d md.fileSize)

/-! ## Wire-format parsing (`main.rs`)

Byte-level embeddings of the string operations the packet parsers use:
`split`, `splitn(2, _)`, `join(":")`, integer and float parsing,
percent-decoding and strict (`general_purpose::STANDARD`) base64. -/

/-- Accumulator form of `str::split(sep)`. -/

def splitOnByteAux (sep : Nat) : Bytes → Bytes → List Bytes
  | [], acc => [acc.reverse]
  | b :: rest, acc =>
      if b = sep then acc.reverse :: splitOnByteAux sep rest []
      else splitOnByteAux sep rest (b :: acc)

/-- `str::split(sep).collect()`: splitting at every separator, keeping
empty pieces (`"" .split` gives `[""]`, as in Rust). -/

def splitOnByte (sep : Nat) (s : Bytes) : List Bytes := splitOnByteAux sep s []

/-- Accumulator form of `str::splitn(2, sep)`. -/

def splitFirstAux (sep : Nat) : Bytes → Bytes → List Bytes
  | [], acc => [acc.reverse]
  | b :: rest, acc =>
      if b = sep then [acc.reverse, rest]
      else splitFirstAux sep rest (b :: acc)

/-- `str::splitn(2, sep).collect()`: at most one split, at the first
separator. -/

def splitFirst (sep : Nat) (s : Bytes) : List Bytes := splitFirstAux sep s []

/-- Is the byte an ASCII digit? -/

def isDigitB (b : Nat) : Bool := 48 ≤ b && b ≤ 57

/-- The value of an ASCII digit string. -/

def digitsToNat (s : Bytes) : Nat := s.foldl (fun n b => n * 10 + (b - 48)) 0

/-- Rust `str::parse::<u64>` (and `usize` on 64-bit targets): an optional
leading `'+'`, at least one ASCII digit, and an overflow check at
`2 ^ 64`. -/

def parseU64 (s : Bytes) : Option Nat :=
  let t := match s with | 43 :: rest => rest | _ => s
  if t ≠ [] ∧ t.all isDigitB ∧ digitsToNat t < 2 ^ 64 then some (digitsToNat t)
  else none

/-- An optional exponent suffix of a float literal: empty, or
`('e'|'E') ['+'|'-'] Digits` with nonempty digits. -/

def parseExpOk (s : Bytes) : Bool :=
  match s with
  | [] => true
  | e :: rest =>
      if e = 101 ∨ e = 69 then
        let r2 := match rest with | 43 :: r => r | 45 :: r => r | _ => rest
        r2 ≠ [] && r2.all isDigitB
      else false

/-- The `Number` production of Rust's `f64::from_str` grammar:
`Digits '.'? Digits? Exp?` or `'.' Digits? Exp?` with at least one
mantissa digit overall. -/

def parsesAsNumberF64 (t : Bytes) : Bool :=
  let d1 := t.takeWhile isDigitB
  let r1 := t.dropWhile isDigitB
  match r1 with
  | 46 :: r2 =>
      let d2 := r2.takeWhile isDigitB
      let r3 := r2.dropWhile isDigitB
      if d1.isEmpty && d2.isEmpty then false else parseExpOk r3
  | _ => !d1.isEmpty && parseExpOk r1

/-- Does the byte string parse as an `f64` (`str::parse::<f64>` never
overflows, so only the grammar matters): optional sign, then
`inf`/`infinity`/`nan` (case-insensitive) or a `Number`. -/

def parsesAsF64 (s : Bytes) : Bool :=
  let t := match s with | 43 :: r => r | 45 :: r => r | _ => s
  let low := toLowerAscii t
  if low = strBytes "inf" ∨ low = strBytes "infinity" ∨ low = strBytes "nan"
  then true
  else parsesAsNumberF64 t

/-- The value of an ASCII hex digit, either case. -/

def hexVal (b : Nat) : Option Nat :=
  if 48 ≤ b ∧ b ≤ 57 then some (b - 48)
  else if 97 ≤ b ∧ b ≤ 102 then some (b - 87)
  else if 65 ≤ b ∧ b ≤ 70 then some (b - 55)
  else none

/-- `urlencoding::decode`, at the byte level: a `'%'` followed by two hex
digits becomes that byte; any other `'%'` is passed through verbatim. -/

def percentDecode : Bytes → Bytes
  | [] => []
  | 37 :: h :: l :: rest =>
      match hexVal h, hexVal l with
      | some hv, some lv => (hv * 16 + lv) :: percentDecode rest
      | _, _ => 37 :: percentDecode (h :: l :: rest)
  | b :: rest => b :: percentDecode rest

/-- Is a byte a UTF-8 continuation byte? -/

def isCont (b : Nat) : Bool := 128 ≤ b && b ≤ 191

/-- UTF-8 validity of a byte string (`String::from_utf8` succeeding):
`urlencoding::decode` fails — and `main.rs` falls back to the empty
string — exactly when the percent-decoded bytes are not valid UTF-8. -/

def isValidUtf8 : Bytes → Bool
  | [] => true
  | b :: rest =>
      if b ≤ 127 then isValidUtf8 rest
      else if 194 ≤ b ∧ b ≤ 223 then
        match rest with
        | c1 :: r => isCont c1 && isValidUtf8 r
        | [] => false
      else if b = 224 then
        match rest with
        | c1 :: c2 :: r =>
            (160 ≤ c1 && c1 ≤ 191) && isCont c2 && isValidUtf8 r
        | _ => false
      else if (225 ≤ b ∧ b ≤ 236) ∨ b = 238 ∨ b = 239 then
        match rest with
        | c1 :: c2 :: r => isCont c1 && isCont c2 && isValidUtf8 r
        | _ => false
      else if b = 237 then
        match rest with
        | c1 :: c2 :: r =>
            (128 ≤ c1 && c1 ≤ 159) && isCont c2 && isValidUtf8 r
        | _ => false
      else if b = 240 then
        match rest with
        | c1 :: c2 :: c3 :: r =>
            (144 ≤ c1 && c1 ≤ 191) && isCont c2 && isCont c3 && isValidUtf8 r
        | _ => false
      else if 241 ≤ b ∧ b ≤ 243 then
        match rest with
        | c1 :: c2 :: c3 :: r =>
            isCont c1 && isCont c2 && isCont c3 && isValidUtf8 r
        | _ => false
      else if b = 244 then
        match rest with
        | c1 :: c2 :: c3 :: r =>
            (128 ≤ c1 && c1 ≤ 143) && isCont c2 && isCont c3 && isValidUtf8 r
        | _ => false
      else false

/-- The value of a standard-alphabet base64 character. -/

def b64Val (b : Nat) : Option Nat :=
  if 65 ≤ b ∧ b ≤ 90 then some (b - 65)
  else if 97 ≤ b ∧ b ≤ 122 then some (b - 71)
  else if 48 ≤ b ∧ b ≤ 57 then some (b + 4)
  else if b = 43 then some 62
  else if b = 47 then some 63
  else none

/-- Strict base64 decoding by 4-character quanta
(`general_purpose::STANDARD`: canonical padding required, non-zero
trailing bits rejected, padding only in the final quantum). -/

def b64DecodeQuanta : Bytes → Option Bytes
  | [] => some []
  | c1 :: c2 :: c3 :: c4 :: rest =>
      match b64Val c1, b64Val c2 with
      | some v1, some v2 =>
          if c3 = 61 then
            if c4 = 61 ∧ rest = [] then
              if v2 % 16 = 0 then some [v1 * 4 + v2 / 16] else none
            else none
          else
            match b64Val c3 with
            | some v3 =>
                if c4 = 61 then
                  if rest = [] then
                    if v3 % 4 = 0 then
                      some [v1 * 4 + v2 / 16, (v2 % 16) * 16 + v3 / 4]
                    else none
                  else none
                else
                  match b64Val c4 with
                  | some v4 =>
                      match b64DecodeQuanta rest with
                      | some tail =>
                          some ([v1 * 4 + v2 / 16, (v2 % 16) * 16 + v3 / 4,
                                 (v3 % 4) * 64 + v4] ++ tail)
                      | none => none
                  | none => none
            | none => none
      | _, _ => none
  | _ => none

/-- `general_purpose::STANDARD.decode`: total length must be a multiple
of four (canonical padding). -/

def b64Decode (s : Bytes) : Option Bytes := b64DecodeQuanta s

/-! ## `main.rs`: multiplexing `FountainDecoder`

`process_qr_code` / `process_metadata_packet` / `process_data_packet` /
`finalize_file`: a map of per-file decoders keyed by
`format!("\x7b\x7d_\x7b\x7d", file_name, chunks_count)` plus the
`current_active_file` slot that implements temporal routing. -/

/-- Decimal rendering of a number, as ASCII bytes. -/

def natDecimal (n : Nat) : Bytes := (Nat.toDigits 10 n).map Char.toNat

/-- The file key `format!("\x7b\x7d_\x7b\x7d", file_name, chunks_count)`
of `process_metadata_packet`. -/

def fileKey (name : Bytes) (chunks : Nat) : Bytes :=
  name ++ [95] ++ natDecimal chunks

/-- `urlencoding::decode(..).unwrap_or_default()`: percent-decode, empty
string when the decoded bytes are not valid UTF-8. -/

def urlDecodeOrEmpty (s : Bytes) : Bytes :=
  let d := percentDecode s
  if isValidUtf8 d then d else []

/-- `process_metadata_packet`'s parse: `none` models every `Err` path
(fewer than 10 fields, or any numeric field failing to parse). -/

def parseMetaM (s : Bytes) : Option MMeta :=
  let parts := splitOnByte 58 s
  if parts.length < 10 then none
  else
    match parseU64 (parts.getD 4 []), parseU64 (parts.getD 5 []),
        parseU64 (parts.getD 6 []), parseU64 (parts.getD 7 []) with
    | some fileSize, some chunksCount, some packetsCount, some maxDegree =>
        if parsesAsF64 (parts.getD 8 []) ∧ parsesAsF64 (parts.getD 9 []) then
          match parseU64 (parts.getD 10 (strBytes "1024")) with
          | some chunkSize =>
              if parsesAsF64 (parts.getD 11 (strBytes "1.0")) then
                some { version := parts.getD 1 [],
                       fileName := urlDecodeOrEmpty (parts.getD 2 []),
                       fileType := urlDecodeOrEmpty (parts.getD 3 []),
                       fileSize := fileSize, chunksCount := chunksCount,
                       packetsCount := packetsCount, maxDegree := maxDegree,
                       chunkSize := chunkSize,
                       fileChecksum := (parts.get? 13).bind
                         (fun c => if c = [] then none else some c),
                       metaChecksum := (parts.get? 14).bind
                         (fun c => if c = [] then none else some c) }
              else none
          | none => none
        else none
    | _, _, _, _ => none

/-- The systematic-record loop of `process_data_packet` (`main.rs`):
each pipe-separated record is split once at a colon; records whose index
parses and whose base64 decodes contribute a chunk, all others are
skipped. -/

def parseSystematicRecords (records : List Bytes) : List (Nat × Bytes) :=
  records.foldl
    (fun acc record =>
      match splitFirst 58 record with
      | [idxB, dataB] =>
          match parseU64 idxB with
          | some idx =>
              match b64Decode dataB with
              | some dat => acc ++ [(idx, dat)]
              | none => acc
          | none => acc
      | _ => acc)
    []

/-- `process_data_packet`'s parse (`main.rs`): the six fixed fields, then
the body re-joined with `':'` from field 6 onward; `'|'` selects the
systematic branch, otherwise `','` selects the coded branch
(`filter_map` dropping unparsable comma-pieces, XOR payload from raw
field 7), otherwise an empty packet.  `none` models the `Err` paths
(fewer than 6 fields or a numeric prefix field failing to parse). -/

def parseDataM (s : Bytes) : Option MPacket :=
  let parts := splitOnByte 58 s
  if parts.length < 6 then none
  else
    match parseU64 (parts.getD 1 []), parseU64 (parts.getD 2 []),
        parseU64 (parts.getD 3 []), parseU64 (parts.getD 4 []),
        parseU64 (parts.getD 5 []) with
    | some packetId, some _seed, some _seedBase, some numChunks,
        some chunkCount =>
        let allDataPart := List.intercalate [58] (parts.drop 6)
        if 124 ∈ allDataPart then
          let recs := parseSystematicRecords (splitOnByte 124 allDataPart)
          some { packetId := packetId, numChunks := numChunks,
                 chunkCount := chunkCount,
                 sourceChunks := recs.map Prod.fst, xorData := [],
                 systematicChunks := recs }
        else if 44 ∈ allDataPart then
          let srcs := (splitOnByte 44 allDataPart).foldl
            (fun acc piece =>
              match parseU64 piece with
              | some n => acc ++ [n]
              | none => acc)
            []
          let xd := if 8 ≤ parts.length
            then (b64Decode (parts.getD 7 [])).getD [] else []
          some { packetId := packetId, numChunks := numChunks,
                 chunkCount := chunkCount, sourceChunks := srcs,
                 xorData := xd, systematicChunks := [] }
        else
          some { packetId := packetId, numChunks := numChunks,
                 chunkCount := chunkCount, sourceChunks := [],
                 xorData := [], systematicChunks := [] }
    | _, _, _, _, _ => none

/-- Look up a file key in the decoder map. -/

def lookupFile (m : List (Bytes × MFileDec)) (k : Bytes) : Option MFileDec :=
  match m with
  | [] => none
  | (k', v) :: rest => if k = k' then some v else lookupFile rest k

/-- Replace the decoder stored at an existing key (`HashMap::get_mut`
followed by mutation). -/

def updateFile (m : List (Bytes × MFileDec)) (k : Bytes) (d : MFileDec) :
    List (Bytes × MFileDec) :=
  match m with
  | [] => []
  | (k', v) :: rest =>
      if k = k' then (k', d) :: rest else (k', v) :: updateFile rest k d

/-- The fresh `FileDecoder` built by `process_metadata_packet` for an
unseen key. -/

def newFileDec (md : MMeta) : MFileDec :=
  { metadata := some md, sourceChunks := [], codedPackets := [],
    recoveredChunkCount := 0, totalChunks := md.chunksCount,
    chunkGrid := List.replicate md.chunksCount false }

/-- State of the multiplexing `FountainDecoder` of `main.rs`, together
with the trace of file writes it has performed. -/

structure MState where
  files : List (Bytes × MFileDec)
  currentActiveFile : Option Bytes
  trace : List FsOp
  deriving DecidableEq, Repr

/-- `FountainDecoder::new` (`main.rs`). -/

def MState.new : MState :=
  { files := [], currentActiveFile := none, trace := [] }

/-- `FountainDecoder::process_metadata_packet`: on a successful parse, a
decoder is created for the key `(file_name, chunks_count)` if none
exists, and `current_active_file` is set to that key; on a parse error
the state is unchanged. -/

def stepMetaM (st : MState) (s : Bytes) : MState :=
  match parseMetaM s with
  | none => st
  | some md =>
      let key := fileKey md.fileName md.chunksCount
      let files1 :=
        if (lookupFile st.files key).isSome then st.files
        else (key, newFileDec md) :: st.files
      { st with files := files1, currentActiveFile := some key }

/-- `FountainDecoder::finalize_file`: requires metadata, reconstructs,
marks the whole chunk grid received, and writes the file directly to
`output_dir.join(file_name)`; a reconstruction error leaves the map as
updated by `add_packet` and writes nothing. -/

def finalizeFileM (files : List (Bytes × MFileDec)) (key : Bytes)
    (d : MFileDec) (outputDir : Bytes) (trace : List FsOp) :
    List (Bytes × MFileDec) × List FsOp :=
  match d.metadata with
  | none => (files, trace)
  | some md =>
      match mReconstructFile d with
      | some data =>
          (updateFile files key { d with chunkGrid := d.chunkGrid.map (fun _ => true) },
           trace ++ [FsOp.writeFile (joinPath outputDir md.fileName) data])
      | none => (files, trace)

/-- `FountainDecoder::process_data_packet`: parse, then route the packet
to the decoder of `current_active_file` only — an unset slot is an error
that leaves the state unchanged — and finalize when that decoder becomes
complete. -/

def stepDataM (st : MState) (outputDir : Bytes) (s : Bytes) : MState :=
  match parseDataM s with
  | none => st
  | some p =>
      match st.currentActiveFile with
      | none => st
      | some key =>
          match lookupFile st.files key with
          | none => st
          | some d =>
              let d1 := mAddPacket d p
              let files1 := updateFile st.files key d1
              if d1.isComplete then
                let r := finalizeFileM files1 key d1 outputDir st.trace
                { st with files := r.1, trace := r.2 }
              else { st with files := files1 }

/-- `FountainDecoder::process_qr_code`: dispatch on the `M:`/`D:`
prefix; anything else is ignored. -/

def stepQrM (outputDir : Bytes) (st : MState) (s : Bytes) : MState :=
  if startsWithB (strBytes "M:") s then stepMetaM st s
  else if startsWithB (strBytes "D:") s then stepDataM st outputDir s
  else st

/-- The decoder driven over a packet stream in order (the processing
loops of `decode_command` and the streaming paths). -/

def runStreamM (outputDir : Bytes) (st : MState) (stream : List Bytes) :
    MState :=
  stream.foldl (stepQrM outputDir) st

/-! ## `completion_detector.rs`: `determine_completion`

The numeric completion criteria.  The `f64` ratios are modelled as exact
rational comparisons; the reachable division-by-zero
(`actual_frames / expected_frames` with `expected_frames == 0`) follows
IEEE-754: `x / 0.0` is `+inf` (≥ any threshold) for `x > 0` and NaN
(every comparison false) for `x == 0`. -/

/-- `a as f64 / b as f64 >= num/den` (with `0 < den`), under IEEE-754
division semantics at `b = 0`. -/

def ratioGE (a b num den : Nat) : Bool :=
  if b = 0 then decide (a ≠ 0) else decide (num * b ≤ den * a)

/-- `expected_max_frame`: `expected_frames / (skip_frames + 1)` under
integer division when `skip_frames > 0`, else `expected_frames`. -/

def expectedMaxFrame (skipFrames expectedFrames : Nat) : Nat :=
  if 0 < skipFrames then expectedFrames / (skipFrames + 1) else expectedFrames

/-- `frame_range_coverage >= 0.90`: the source sets the coverage to `0.0`
explicitly when `expected_max_frame == 0`. -/

def rangeCoverageGE (maxFrame emf : Nat) : Bool :=
  if 0 < emf then decide (90 * emf ≤ 100 * maxFrame) else false

/-- `expected_min_qr_codes`: 200 for the last chunk, 300 otherwise. -/

def qrThreshold (chunkId chunkCount : Nat) : Nat :=
  if chunkId = chunkCount - 1 then 200 else 300

/-- `CompletionDetector::determine_completion` (the boolean part): the
`COMPLETE` clause (`≥ 0.95` frames, `≥ 0.90` range, QR threshold,
`frame_span >= expected_max_frame * 80 / 100` under integer arithmetic)
or the `ADEQUATE` clause (`≥ 0.80` frames and the QR threshold). -/

def determineCompletion (chunkId chunkCount skipFrames expectedFrames
    actualFrames maxFrame minFrame qrCodes : Nat) : Bool :=
  let emf := expectedMaxFrame skipFrames expectedFrames
  let qrOK := decide (qrThreshold chunkId chunkCount ≤ qrCodes)
  let span := maxFrame - minFrame
  let spanOK := decide (emf * 80 / 100 ≤ span)
  (ratioGE actualFrames expectedFrames 95 100 &&
     (rangeCoverageGE maxFrame emf && (qrOK && spanOK))) ||
  (ratioGE actualFrames expectedFrames 80 100 && qrOK)

/-- The completion criteria exactly as the claim states them, over exact
rational arithmetic: clause (a) — frame coverage ≥ 0.95, range coverage
≥ 0.90, the QR-count threshold, and frame span ≥ 0.80·expected_max_frame
— or clause (b) — frame coverage ≥ 0.80 and the QR-count threshold. -/

def claimCompletion (chunkId chunkCount skipFrames expectedFrames
    actualFrames maxFrame minFrame qrCodes : Nat) : Prop :=
  let emf := expectedMaxFrame skipFrames expectedFrames
  let frameCov : ℚ := (actualFrames : ℚ) / (expectedFrames : ℚ)
  let rangeCov : ℚ := (maxFrame : ℚ) / (emf : ℚ)
  let qrOK := qrThreshold chunkId chunkCount ≤ qrCodes
  let span := maxFrame - minFrame
  (frameCov ≥ 95 / 100 ∧ rangeCov ≥ 90 / 100 ∧ qrOK ∧
     (span : ℚ) ≥ 80 / 100 * (emf : ℚ)) ∨
  (frameCov ≥ 80 / 100 ∧ qrOK)

/-! ## `main.rs`: streaming deduplication (`extract_streaming`)

The per-run `seen_qr_data: HashSet<String>`: a payload is streamed when
`insert` reports it new, otherwise counted as a skipped duplicate. -/

/-- Deduplication state: the seen set, the emitted observations (in
order) and the duplicate counter. -/

structure DedupState where
  seen : List Bytes
  emitted : List (Nat × Bytes)
  dups : Nat
  deriving DecidableEq, Repr

/-- One QR observation `(frame_number, payload)` passing through the
`seen_qr_data.insert` check. -/

def dedupStep (st : DedupState) (ob : Nat × Bytes) : DedupState :=
  if ob.2 ∈ st.seen then { st with dups := st.dups + 1 }
  else { seen := ob.2 :: st.seen, emitted := st.emitted ++ [ob],
         dups := st.dups }

/-- The extraction loop's deduplication over a whole observation
stream. -/

def dedupRun (obs : List (Nat × Bytes)) : DedupState :=
  obs.foldl dedupStep { seen := [], emitted := [], dups := 0 }

/-- The sliding-window property claimed of the deduplication set: after
processing up to frame `lastFrame`, every payload still in the set was
observed within the last `W = 2 × fps` frames. -/

def dedupWindowProperty (obs : List (Nat × Bytes)) (fps lastFrame : Nat) :
    Prop :=
  ∀ p ∈ (dedupRun obs).seen,
    ∃ e ∈ obs, e.2 = p ∧ lastFrame ≤ e.1 + 2 * fps

/-! ## `video.rs`: chunk planning

`split_by_count` and `split_by_duration`, over exact rational time. -/

/-- One planned chunk interval (`VideoChunk`; the derived `duration`
field and the path are omitted). -/

structure VChunk where
  id : Nat
  startTime : ℚ
  stopTime : ℚ
  deriving DecidableEq, Repr

/-- `VideoProcessor::split_by_count`: `chunk_duration = duration / n`,
chunk `i` spans `[i·d, (i+1)·d)` except the last, which ends exactly at
`duration`. -/

def splitByCount (duration : ℚ) (chunkCount : Nat) : List VChunk :=
  (List.range chunkCount).map fun i =>
    let d := duration / (chunkCount : ℚ)
    { id := i, startTime := (i : ℚ) * d,
      stopTime := if i = chunkCount - 1 then duration else ((i : ℚ) + 1) * d }

/-- `VideoProcessor::split_by_duration`:
`chunk_count = ceil(duration / d)`, chunk `i` spans
`[i·d, min((i+1)·d, duration))`. -/

def splitByDuration (duration dpc : ℚ) : List VChunk :=
  let chunkCount := Nat.ceil (duration / dpc)
  (List.range chunkCount).map fun i =>
    { id := i, startTime := (i : ℚ) * dpc,
      stopTime := min (((i : ℚ) + 1) * dpc) duration }

/-- A chunk plan is an ordered partition of `[0, duration)`: sorted and
pairwise non-overlapping half-open intervals whose union is exactly
`[0, duration)`, consecutive intervals sharing an endpoint. -/

def isChunkPlanOf (cs : List VChunk) (duration : ℚ) : Prop :=
  List.Chain' (fun a b => a.stopTime = b.startTime) cs ∧
  List.Pairwise (fun a b => a.stopTime ≤ b.startTime) cs ∧
  (∀ c ∈ cs, c.startTime ≤ c.stopTime) ∧
  (∀ x : ℚ, (∃ c ∈ cs, c.startTime ≤ x ∧ x < c.stopTime) ↔
    (0 ≤ x ∧ x < duration))

/-- The source-chunk indices mentioned by any pending packet. -/

def sourcesOf (ps : List CodedP) : List Nat :=
  ps.foldr (fun p acc => p.sourceChunks ++ acc) []

/-- The set of indices some pending packet mentions that are not yet
received: the termination measure of the peeling loop. -/

def missingSet (sc : List (Nat × Bytes)) (ps : List CodedP) : Finset Nat :=
  (sourcesOf ps).toFinset.filter (fun i => lookupChunk sc i = none)

/-- The recovered value as the claim words it: the packet's XOR payload
folded with the chunks at all indices of the packet other than the
missing one. -/

def claimPeel (sc : List (Nat × Bytes)) (p : CodedP) (m : Nat) : Bytes :=
  (p.sourceChunks.filter (fun i => i != m)).foldl (peelFun sc) p.xorData

/-- Metadata of the concrete three-chunk file used by the peeling
scenarios. -/

def c2meta : FMeta :=
  { version := strBytes "1", fileName := strBytes "f.bin",
    fileType := strBytes "bin", fileSize := 3, chunksCount := 3,
    fileChecksum := none }

/-- Coded packet `XOR(0,1)` for source chunks `[1]`, `[2]`, `[3]`. -/

def c2d1 : DPacket :=
  { packetId := 1, sourceChunks := [0, 1], systematicChunks := [],
    xorData := some [3] }

/-- Coded packet `XOR(1,2)` for source chunks `[1]`, `[2]`, `[3]`. -/

def c2d2 : DPacket :=
  { packetId := 2, sourceChunks := [1, 2], systematicChunks := [],
    xorData := some [1] }

/-- Coded packet `XOR(0,1,2)` for source chunks `[1]`, `[2]`, `[3]`. -/

def c2d3 : DPacket :=
  { packetId := 3, sourceChunks := [0, 1, 2], systematicChunks := [],
    xorData := some [0] }

/-- The decoder after ingesting the three coded packets (and nothing
systematic): every pending packet is at least two chunks short, so the
peeling loop is stuck. -/

def c2state : FState :=
  (addPacketF (addPacketF (addPacketF (initializeF c2meta) c2d1).1 c2d2).1
    c2d3).1

/-- The stored form of `c2d3` on the pending queue. -/

def c2pk : CodedP :=
  { packetId := 3, sourceChunks := [0, 1, 2], xorData := [0] }

/-- A decoder holding chunks 0 and 2 with `XOR(0,1,2)` pending: one
peeling step recovers chunk 1. -/

def c2wstate : FState :=
  { initialized := true, metaData := some c2meta, totalChunks := 3,
    sourceChunks := [(0, [1]), (2, [3])], recoveredChunkCount := 2,
    codedPackets := [c2pk] }

/-- A data packet carrying a single raw systematic chunk. -/

def sysPacket (pid idx : Nat) (data : Bytes) : DPacket :=
  { packetId := pid, sourceChunks := [idx],
    systematicChunks := [(idx, data)], xorData := none }

/-- A state whose recovered counter reached `total_chunks` although chunk
0 was never received: an out-of-range index (5) was counted instead. -/

def c10state : FState :=
  { initialized := true, metaData := some c2meta, totalChunks := 3,
    sourceChunks := [(5, [1]), (1, [2]), (2, [3])],
    recoveredChunkCount := 3, codedPackets := [] }

/-- The checksum rendering exactly as the claim words it: lowercase hex
of the FNV-1a 32-bit hash, truncated to the first 8 characters (no
padding). -/

def claimChecksum (data : Bytes) : Bytes := (hexBytes (fnv1a32 data)).take 8

/-- Metadata of a one-chunk file whose FNV-1a hash has only 7 hex digits
(`fnv1a32 [1] = 0x040c5b8c`), stored zero-padded as the transmitter
checksum. -/

def c3md : MMeta :=
  { version := strBytes "1", fileName := strBytes "p.bin",
    fileType := strBytes "bin", fileSize := 1, chunksCount := 1,
    packetsCount := 1, maxDegree := 1, chunkSize := 1,
    fileChecksum := some (strBytes "040c5b8c"), metaChecksum := none }

/-- A complete `main.rs` `FileDecoder` for that file. -/

def c3dec : MFileDec :=
  { metadata := some c3md, sourceChunks := [(0, [1])], codedPackets := [],
    recoveredChunkCount := 1, totalChunks := 1, chunkGrid := [true] }

/-- Metadata of the one-chunk file `ABC` with its 8-digit checksum. -/

def c3fmd : FMeta :=
  { version := strBytes "1", fileName := strBytes "f.bin",
    fileType := strBytes "bin", fileSize := 3, chunksCount := 1,
    fileChecksum := some (strBytes "5c842f6b") }

/-- A complete `decode_qr_files.rs` decoder for the file `ABC`. -/

def c3fstate : FState :=
  { initialized := true, metaData := some c3fmd, totalChunks := 1,
    sourceChunks := [(0, strBytes "ABC")], recoveredChunkCount := 1,
    codedPackets := [] }

/-- Atomic emission as the claim words it: the final path is never
written directly; instead some temporary path is written and then
renamed onto the final path. -/

def atomicEmission (tr : List FsOp) (finalPath : Bytes) : Prop :=
  (∀ d : Bytes, FsOp.writeFile finalPath d ∉ tr) ∧
  ∃ tmp d, tmp ≠ finalPath ∧ FsOp.writeFile tmp d ∈ tr ∧
    FsOp.renamePath tmp finalPath ∈ tr

/-- Metadata of the checksum-free one-chunk file `ABC`. -/

def c5md : FMeta :=
  { version := strBytes "1", fileName := strBytes "f.bin",
    fileType := strBytes "bin", fileSize := 3, chunksCount := 1,
    fileChecksum := none }

/-- A complete decoder for the file `ABC`, ready to finalize. -/

def c5state : FState :=
  { initialized := true, metaData := some c5md, totalChunks := 1,
    sourceChunks := [(0, strBytes "ABC")], recoveredChunkCount := 1,
    codedPackets := [] }

/-- The parsed form of a representative metadata packet. -/

def c1md : MMeta :=
  { version := strBytes "1", fileName := strBytes "f.bin",
    fileType := strBytes "application/octet-stream", fileSize := 9,
    chunksCount := 3, packetsCount := 10, maxDegree := 3, chunkSize := 1024,
    fileChecksum := none, metaChecksum := none }

/-- That packet on the wire. -/

def c1mpkt : Bytes :=
  strBytes "M:1:f.bin:application%2Foctet-stream:9:3:10:3:0.5:30"

/-- Metadata of a second, unrelated in-flight file. -/

def c1mdA : MMeta :=
  { version := strBytes "1", fileName := strBytes "a",
    fileType := strBytes "bin", fileSize := 1, chunksCount := 1,
    packetsCount := 1, maxDegree := 1, chunkSize := 1,
    fileChecksum := none, metaChecksum := none }

/-- A multiplexer with two in-flight files whose active slot points at
`f.bin_3`. -/

def c1dstate : MState :=
  { files := [(strBytes "a_1", newFileDec c1mdA),
              (strBytes "f.bin_3", newFileDec c1md)],
    currentActiveFile := some (strBytes "f.bin_3"), trace := [] }

/-! ## Theorems -/

theorem lookupChunk_insert (m : List (Nat × Bytes)) (k k' : Nat) (v : Bytes) :
    lookupChunk (insertChunk m k v) k' =
      if k' = k then some v else lookupChunk m k' := by
  simp [insertChunk, lookupChunk]

/-! ## Supporting lemmas: the peeling scan of `process_coded` -/

theorem missingOf_mem_none {sc : List (Nat × Bytes)} {p : CodedP} {m : Nat}
    (h : m ∈ missingOf sc p) : lookupChunk sc m = none := by
  simp only [missingOf, List.mem_filter, Option.isNone_iff_eq_none] at h
  exact h.2

theorem missingOf_mem_sources {sc : List (Nat × Bytes)} {p : CodedP} {m : Nat}
    (h : m ∈ missingOf sc p) : m ∈ p.sourceChunks := by
  simp only [missingOf, List.mem_filter] at h
  exact h.1

theorem scanStep_sc_mono (a : ScanAcc) (p : CodedP) (k : Nat) (v : Bytes)
    (h : lookupChunk a.sc k = some v) :
    lookupChunk (scanStep a p).sc k = some v := by
  unfold scanStep
  cases hm : missingOf a.sc p with
  | nil => simpa using h
  | cons m rest =>
    cases rest with
    | nil =>
      have hmnone : lookupChunk a.sc m = none :=
        missingOf_mem_none (hm ▸ List.mem_singleton_self m)
      have hk : k ≠ m := by
        intro he; rw [he, hmnone] at h; exact absurd h (by simp)
      simp [lookupChunk_insert, hk, h]
    | cons b t => simpa using h

theorem foldl_scanStep_sc_mono (l : List CodedP) (a : ScanAcc) (k : Nat)
    (v : Bytes) (h : lookupChunk a.sc k = some v) :
    lookupChunk (l.foldl scanStep a).sc k = some v := by
  induction l generalizing a with
  | nil => simpa using h
  | cons p rest ih =>
    simp only [List.foldl_cons]
    exact ih (scanStep a p) (scanStep_sc_mono a p k v h)

theorem foldl_scanStep_kept_sub (l : List CodedP) (a : ScanAcc)
    (q : CodedP) (h : q ∈ (l.foldl scanStep a).kept) :
    q ∈ a.kept ∨ q ∈ l := by
  induction l generalizing a with
  | nil => exact Or.inl (by simpa using h)
  | cons p rest ih =>
    simp only [List.foldl_cons] at h
    rcases ih (scanStep a p) h with h1 | h1
    · unfold scanStep at h1
      cases hm : missingOf a.sc p with
      | nil => rw [hm] at h1; exact Or.inl h1
      | cons m r =>
        cases r with
        | nil => rw [hm] at h1; exact Or.inl h1
        | cons b t =>
          rw [hm] at h1
          simp only [List.mem_cons] at h1
          rcases h1 with h1 | h1
          · exact Or.inr (by simp [h1])
          · exact Or.inl h1
    · exact Or.inr (List.mem_cons_of_mem p h1)

theorem foldl_scanStep_prog_mono (l : List CodedP) (a : ScanAcc)
    (h : a.prog = true) : (l.foldl scanStep a).prog = true := by
  induction l generalizing a with
  | nil => simpa using h
  | cons p rest ih =>
    simp only [List.foldl_cons]
    apply ih
    unfold scanStep
    cases hm : missingOf a.sc p with
    | nil => simpa using h
    | cons m r => cases r with
      | nil => simp
      | cons b t => simpa using h

theorem foldl_scanStep_isSome_mono (l : List CodedP) (a : ScanAcc) (k : Nat)
    (h : (lookupChunk a.sc k).isSome) :
    (lookupChunk (l.foldl scanStep a).sc k).isSome := by
  rcases Option.isSome_iff_exists.mp h with ⟨v, hv⟩
  exact Option.isSome_iff_exists.mpr ⟨v, foldl_scanStep_sc_mono l a k v hv⟩

theorem foldl_scanStep_prog_new (l : List CodedP) (a : ScanAcc)
    (ha : a.prog = false) (h : (l.foldl scanStep a).prog = true) :
    ∃ m, (∃ p ∈ l, m ∈ p.sourceChunks) ∧ lookupChunk a.sc m = none ∧
      (lookupChunk (l.foldl scanStep a).sc m).isSome := by
  induction l generalizing a with
  | nil => rw [List.foldl_nil] at h; rw [ha] at h; exact absurd h (by simp)
  | cons p rest ih =>
    simp only [List.foldl_cons] at h ⊢
    cases hm : missingOf a.sc p with
    | nil =>
      have ha' : scanStep a p = a := by unfold scanStep; rw [hm]
      rw [ha'] at h ⊢
      rcases ih a ha h with ⟨m, ⟨p', hp', hm'⟩, hnone, hsome⟩
      exact ⟨m, ⟨p', List.mem_cons_of_mem p hp', hm'⟩, hnone, hsome⟩
    | cons m r =>
      cases r with
      | nil =>
        refine ⟨m, ⟨p, List.mem_cons_self p rest, missingOf_mem_sources
          (hm ▸ List.mem_singleton_self m)⟩,
          missingOf_mem_none (hm ▸ List.mem_singleton_self m), ?_⟩
        apply foldl_scanStep_isSome_mono
        have : (scanStep a p).sc = insertChunk a.sc m (peelValue a.sc p m) := by
          unfold scanStep; rw [hm]
        rw [this, lookupChunk_insert]
        simp
      | cons b t =>
        have ha' : scanStep a p =
            { a with kept := p :: a.kept } := by unfold scanStep; rw [hm]
        rw [ha'] at h ⊢
        rcases ih { a with kept := p :: a.kept } (by simpa using ha) h with
          ⟨m', ⟨p', hp', hm'⟩, hnone, hsome⟩
        exact ⟨m', ⟨p', List.mem_cons_of_mem p hp', hm'⟩, by simpa using hnone,
          hsome⟩

theorem foldl_scanStep_no_prog (l : List CodedP) (a : ScanAcc)
    (h : (l.foldl scanStep a).prog = false) :
    (l.foldl scanStep a).sc = a.sc ∧ (l.foldl scanStep a).cnt = a.cnt ∧
      ∀ q ∈ (l.foldl scanStep a).kept,
        q ∈ a.kept ∨ 2 ≤ (missingOf a.sc q).length := by
  induction l generalizing a with
  | nil =>
    refine ⟨by simp, by simp, ?_⟩
    intro q hq
    exact Or.inl (by simpa using hq)
  | cons p rest ih =>
    simp only [List.foldl_cons] at h ⊢
    cases hm : missingOf a.sc p with
    | nil =>
      have ha' : scanStep a p = a := by unfold scanStep; rw [hm]
      rw [ha'] at h ⊢
      exact ih a h
    | cons m r =>
      cases r with
      | nil =>
        exfalso
        have ha' : (scanStep a p).prog = true := by
          unfold scanStep; rw [hm]
        have := foldl_scanStep_prog_mono rest (scanStep a p) ha'
        rw [this] at h
        exact absurd h (by simp)
      | cons b t =>
        have ha' : scanStep a p =
            { a with kept := p :: a.kept } := by unfold scanStep; rw [hm]
        rw [ha'] at h ⊢
        rcases ih _ h with ⟨h1, h2, h3⟩
        refine ⟨by simpa using h1, by simpa using h2, ?_⟩
        intro q hq
        rcases h3 q hq with hq1 | hq1
        · simp only [List.mem_cons] at hq1
          rcases hq1 with rfl | hq1
          · right
            rw [hm]
            simp
          · exact Or.inl hq1
        · exact Or.inr (by simpa using hq1)

theorem mem_sourcesOf {ps : List CodedP} {m : Nat} :
    m ∈ sourcesOf ps ↔ ∃ p ∈ ps, m ∈ p.sourceChunks := by
  induction ps with
  | nil => simp [sourcesOf]
  | cons p rest ih =>
    simp only [sourcesOf, List.foldr_cons, List.mem_append, List.mem_cons]
    rw [show (List.foldr (fun p acc => p.sourceChunks ++ acc) [] rest) =
      sourcesOf rest from rfl, ih]
    constructor
    · rintro (h | ⟨q, hq, hm⟩)
      · exact ⟨p, Or.inl rfl, h⟩
      · exact ⟨q, Or.inr hq, hm⟩
    · rintro ⟨q, (rfl | hq), hm⟩
      · exact Or.inl hm
      · exact Or.inr ⟨q, hq, hm⟩

theorem mem_missingSet {sc : List (Nat × Bytes)} {ps : List CodedP} {m : Nat} :
    m ∈ missingSet sc ps ↔
      (∃ p ∈ ps, m ∈ p.sourceChunks) ∧ lookupChunk sc m = none := by
  simp [missingSet, Finset.mem_filter, List.mem_toFinset, mem_sourcesOf]

theorem lookupChunk_none_of_later {sc : List (Nat × Bytes)} {l : List CodedP}
    {a : ScanAcc} {k : Nat} (hsc : a.sc = sc)
    (h : lookupChunk (l.foldl scanStep a).sc k = none) :
    lookupChunk sc k = none := by
  cases hv : lookupChunk sc k with
  | none => rfl
  | some v =>
    have := foldl_scanStep_sc_mono l a k v (hsc ▸ hv)
    rw [this] at h
    exact absurd h (by simp)

theorem scanPass_prog_ssubset (sc : List (Nat × Bytes)) (cnt : Nat)
    (ps : List CodedP) (h : (scanPass sc cnt ps).prog = true) :
    missingSet (scanPass sc cnt ps).sc (scanPass sc cnt ps).kept ⊂
      missingSet sc ps := by
  have hsub : missingSet (scanPass sc cnt ps).sc (scanPass sc cnt ps).kept ⊆
      missingSet sc ps := by
    intro i hi
    rcases mem_missingSet.mp hi with ⟨⟨q, hq, hiq⟩, hnone⟩
    have hq' : q ∈ ps := by
      rcases foldl_scanStep_kept_sub _ _ q hq with h1 | h1
      · exact absurd h1 (by simp)
      · exact List.mem_reverse.mp h1
    exact mem_missingSet.mpr ⟨⟨q, hq', hiq⟩,
      lookupChunk_none_of_later rfl hnone⟩
  rcases foldl_scanStep_prog_new ps.reverse
      { sc := sc, cnt := cnt, kept := [], prog := false } rfl h with
    ⟨m, ⟨p, hp, hmp⟩, hnone, hsome⟩
  refine (Finset.ssubset_iff_of_subset hsub).mpr
    ⟨m, mem_missingSet.mpr ⟨⟨p, List.mem_reverse.mp hp, hmp⟩, hnone⟩, ?_⟩
  intro hmem
  rcases mem_missingSet.mp hmem with ⟨_, hn⟩
  have hsome2 : (lookupChunk (scanPass sc cnt ps).sc m).isSome = true := hsome
  rw [hn] at hsome2
  exact absurd hsome2 (by simp)

theorem processCodedAux_succ (fuel : Nat) (sc : List (Nat × Bytes))
    (cnt : Nat) (ps : List CodedP) :
    processCodedAux (fuel + 1) sc cnt ps =
      if (scanPass sc cnt ps).prog = true then
        processCodedAux fuel (scanPass sc cnt ps).sc (scanPass sc cnt ps).cnt
          (scanPass sc cnt ps).kept
      else ((scanPass sc cnt ps).sc, (scanPass sc cnt ps).cnt,
        (scanPass sc cnt ps).kept) := rfl

theorem scanPass_not_prog (sc : List (Nat × Bytes)) (cnt : Nat)
    (ps : List CodedP) (hcard : (missingSet sc ps).card = 0) :
    (scanPass sc cnt ps).prog = false := by
  by_contra hp
  rw [Bool.not_eq_false] at hp
  rcases foldl_scanStep_prog_new ps.reverse
      { sc := sc, cnt := cnt, kept := [], prog := false } rfl hp with
    ⟨m, ⟨p, hpmem, hmp⟩, hnone, _⟩
  have hmem : m ∈ missingSet sc ps :=
    mem_missingSet.mpr ⟨⟨p, List.mem_reverse.mp hpmem, hmp⟩, hnone⟩
  have := Finset.card_pos.mpr ⟨m, hmem⟩
  omega

theorem processCodedAux_stable (n : Nat) :
    ∀ (fuel : Nat) (sc : List (Nat × Bytes)) (cnt : Nat) (ps : List CodedP),
      (missingSet sc ps).card ≤ n → n + 1 ≤ fuel →
      processCodedAux fuel sc cnt ps = processCodedAux (n + 1) sc cnt ps := by
  induction n with
  | zero =>
    intro fuel sc cnt ps hcard hfuel
    obtain ⟨f, rfl⟩ : ∃ f, fuel = f + 1 := ⟨fuel - 1, by omega⟩
    have hprog := scanPass_not_prog sc cnt ps (by omega)
    rw [processCodedAux_succ, show (0 : Nat) + 1 = 0 + 1 from rfl,
      processCodedAux_succ, if_neg (by simp [hprog]), if_neg (by simp [hprog])]
  | succ n ih =>
    intro fuel sc cnt ps hcard hfuel
    obtain ⟨f, rfl⟩ : ∃ f, fuel = f + 1 := ⟨fuel - 1, by omega⟩
    rw [processCodedAux_succ, processCodedAux_succ]
    by_cases hprog : (scanPass sc cnt ps).prog = true
    · rw [if_pos hprog, if_pos hprog]
      have hlt := Finset.card_lt_card (scanPass_prog_ssubset sc cnt ps hprog)
      have hcard' :
          (missingSet (scanPass sc cnt ps).sc (scanPass sc cnt ps).kept).card
            ≤ n := by omega
      rw [ih f (scanPass sc cnt ps).sc (scanPass sc cnt ps).cnt
        (scanPass sc cnt ps).kept hcard' (by omega),
        ih (n + 1) (scanPass sc cnt ps).sc (scanPass sc cnt ps).cnt
        (scanPass sc cnt ps).kept hcard' (by omega)]
    · rw [if_neg hprog, if_neg hprog]

theorem processCodedAux_fixed (n : Nat) :
    ∀ (sc : List (Nat × Bytes)) (cnt : Nat) (ps : List CodedP),
      (missingSet sc ps).card ≤ n →
      ∀ q ∈ (processCodedAux (n + 1) sc cnt ps).2.2,
        2 ≤ (missingOf (processCodedAux (n + 1) sc cnt ps).1 q).length := by
  induction n with
  | zero =>
    intro sc cnt ps hcard q hq
    have hprog := scanPass_not_prog sc cnt ps (by omega)
    rw [processCodedAux_succ, if_neg (by simp [hprog])] at hq ⊢
    rcases foldl_scanStep_no_prog ps.reverse
        { sc := sc, cnt := cnt, kept := [], prog := false } hprog with
      ⟨hsc, _, hkept⟩
    rcases hkept q hq with h1 | h1
    · exact absurd h1 (by simp)
    · rw [show (scanPass sc cnt ps).sc =
        (ps.reverse.foldl scanStep
          { sc := sc, cnt := cnt, kept := [], prog := false }).sc from rfl,
        hsc]
      exact h1
  | succ n ih =>
    intro sc cnt ps hcard q hq
    rw [processCodedAux_succ] at hq ⊢
    by_cases hprog : (scanPass sc cnt ps).prog = true
    · rw [if_pos hprog] at hq ⊢
      have hlt := Finset.card_lt_card (scanPass_prog_ssubset sc cnt ps hprog)
      exact ih (scanPass sc cnt ps).sc (scanPass sc cnt ps).cnt
        (scanPass sc cnt ps).kept (by omega) q hq
    · rw [if_neg hprog] at hq ⊢
      rw [Bool.not_eq_true] at hprog
      rcases foldl_scanStep_no_prog ps.reverse
          { sc := sc, cnt := cnt, kept := [], prog := false } hprog with
        ⟨hsc, _, hkept⟩
      rcases hkept q hq with h1 | h1
      · exact absurd h1 (by simp)
      · rw [show (scanPass sc cnt ps).sc =
          (ps.reverse.foldl scanStep
            { sc := sc, cnt := cnt, kept := [], prog := false }).sc from rfl,
          hsc]
        exact h1

theorem scanStep_missing_sublist (a : ScanAcc) (q p : CodedP) :
    List.Sublist (missingOf (scanStep a q).sc p) (missingOf a.sc p) := by
  apply List.monotone_filter_right
  intro x hx
  cases hv : lookupChunk a.sc x with
  | none => simp
  | some v =>
    have hmono := scanStep_sc_mono a q x v hv
    rw [hmono] at hx
    exact absurd hx (by simp)

theorem foldl_scanStep_recovers (l : List CodedP) (a : ScanAcc) (p : CodedP)
    (m : Nat) (hp : p ∈ l) (hm : List.Sublist (missingOf a.sc p) [m])
    (hmem : m ∈ p.sourceChunks) :
    (lookupChunk (l.foldl scanStep a).sc m).isSome := by
  induction l generalizing a with
  | nil => exact absurd hp (by simp)
  | cons q rest ih =>
    simp only [List.foldl_cons]
    rcases List.mem_cons.mp hp with rfl | hp'
    · rcases List.sublist_singleton.mp hm with hms | hms
      · have hsome : (lookupChunk a.sc m).isSome := by
          cases hv : lookupChunk a.sc m with
          | some v => simp
          | none =>
            exfalso
            have hmm : m ∈ missingOf a.sc p :=
              List.mem_filter.mpr ⟨hmem, by simp [hv]⟩
            rw [hms] at hmm
            exact absurd hmm (by simp)
        rcases Option.isSome_iff_exists.mp hsome with ⟨v, hv⟩
        exact foldl_scanStep_isSome_mono rest (scanStep a p) m
          (Option.isSome_iff_exists.mpr ⟨v, scanStep_sc_mono a p m v hv⟩)
      · have hstep : (scanStep a p).sc =
            insertChunk a.sc m (peelValue a.sc p m) := by
          unfold scanStep; rw [hms]
        apply foldl_scanStep_isSome_mono
        rw [hstep, lookupChunk_insert]
        simp
    · exact ih (scanStep a q) hp' ((scanStep_missing_sublist a q p).trans hm)

theorem processCodedAux_isSome_mono (fuel : Nat) :
    ∀ (sc : List (Nat × Bytes)) (cnt : Nat) (ps : List CodedP) (k : Nat),
      (lookupChunk sc k).isSome →
      (lookupChunk (processCodedAux fuel sc cnt ps).1 k).isSome := by
  induction fuel with
  | zero => intro sc cnt ps k h; exact h
  | succ f ih =>
    intro sc cnt ps k h
    rw [processCodedAux_succ]
    by_cases hprog : (scanPass sc cnt ps).prog = true
    · rw [if_pos hprog]
      exact ih _ _ _ k (foldl_scanStep_isSome_mono ps.reverse
        { sc := sc, cnt := cnt, kept := [], prog := false } k h)
    · rw [if_neg hprog]
      exact foldl_scanStep_isSome_mono ps.reverse
        { sc := sc, cnt := cnt, kept := [], prog := false } k h

theorem sourcesOf_length (ps : List CodedP) (n : Nat) :
    ps.foldl (fun n p => n + p.sourceChunks.length) n =
      n + (sourcesOf ps).length := by
  induction ps generalizing n with
  | nil => simp [sourcesOf]
  | cons p rest ih =>
    simp only [List.foldl_cons, sourcesOf, List.foldr_cons, List.length_append]
    rw [ih]
    have : (List.foldr (fun p acc => p.sourceChunks ++ acc) [] rest) =
      sourcesOf rest := rfl
    rw [this]
    omega

theorem missingSet_card_le_fuel (sc : List (Nat × Bytes)) (ps : List CodedP) :
    (missingSet sc ps).card + 1 ≤ codedFuel ps := by
  have h1 : (missingSet sc ps).card ≤ (sourcesOf ps).toFinset.card :=
    Finset.card_filter_le _ _
  have h2 : (sourcesOf ps).toFinset.card ≤ (sourcesOf ps).length :=
    List.toFinset_card_le _
  have h3 : codedFuel ps = (sourcesOf ps).length + 1 := by
    unfold codedFuel
    rw [sourcesOf_length ps 0]
    omega
  omega

theorem processCodedF_recovers (st : FState) (p : CodedP) (m : Nat)
    (hp : p ∈ st.codedPackets) (hm : missingOf st.sourceChunks p = [m]) :
    (lookupChunk (processCodedF st).sourceChunks m).isSome := by
  have hmem : m ∈ p.sourceChunks :=
    missingOf_mem_sources (hm ▸ List.mem_singleton_self m)
  show (lookupChunk (processCodedAux (codedFuel st.codedPackets)
    st.sourceChunks st.recoveredChunkCount st.codedPackets).1 m).isSome
  rw [show codedFuel st.codedPackets =
    (st.codedPackets.foldl (fun n p => n + p.sourceChunks.length) 0) + 1
    from rfl, processCodedAux_succ]
  have hrec := foldl_scanStep_recovers st.codedPackets.reverse
    { sc := st.sourceChunks, cnt := st.recoveredChunkCount, kept := [],
      prog := false } p m (List.mem_reverse.mpr hp)
    (by show List.Sublist (missingOf st.sourceChunks p) [m]
        rw [hm]) hmem
  by_cases hprog : (scanPass st.sourceChunks st.recoveredChunkCount
      st.codedPackets).prog = true
  · rw [if_pos hprog]
    exact processCodedAux_isSome_mono _ _ _ _ m hrec
  · rw [if_neg hprog]
    exact hrec

theorem processCodedF_fixedPoint (st : FState) :
    ∀ q ∈ (processCodedF st).codedPackets,
      2 ≤ (missingOf (processCodedF st).sourceChunks q).length := by
  intro q hq
  have hstab := processCodedAux_stable
    (missingSet st.sourceChunks st.codedPackets).card
    (codedFuel st.codedPackets) st.sourceChunks st.recoveredChunkCount
    st.codedPackets (le_refl _)
    (missingSet_card_le_fuel st.sourceChunks st.codedPackets)
  have hq' : q ∈ (processCodedAux (codedFuel st.codedPackets)
      st.sourceChunks st.recoveredChunkCount st.codedPackets).2.2 := hq
  rw [hstab] at hq'
  have hfix := processCodedAux_fixed
    (missingSet st.sourceChunks st.codedPackets).card
    st.sourceChunks st.recoveredChunkCount st.codedPackets (le_refl _) q hq'
  show 2 ≤ (missingOf (processCodedAux (codedFuel st.codedPackets)
    st.sourceChunks st.recoveredChunkCount st.codedPackets).1 q).length
  rw [hstab]
  exact hfix

theorem missingSet_card_le_total (st : FState)
    (h : ∀ p ∈ st.codedPackets, ∀ i ∈ p.sourceChunks, i < st.totalChunks) :
    (missingSet st.sourceChunks st.codedPackets).card ≤ st.totalChunks := by
  have hsub : missingSet st.sourceChunks st.codedPackets ⊆
      Finset.range st.totalChunks := by
    intro i hi
    rcases mem_missingSet.mp hi with ⟨⟨p, hp, hip⟩, _⟩
    exact Finset.mem_range.mpr (h p hp i hip)
  calc (missingSet st.sourceChunks st.codedPackets).card
      ≤ (Finset.range st.totalChunks).card := Finset.card_le_card hsub
    _ = st.totalChunks := Finset.card_range _

theorem processCoded_pass_bound (st : FState)
    (h : ∀ p ∈ st.codedPackets, ∀ i ∈ p.sourceChunks, i < st.totalChunks)
    (fuel : Nat) (hfuel : st.totalChunks + 1 ≤ fuel) :
    processCodedAux fuel st.sourceChunks st.recoveredChunkCount
        st.codedPackets =
      processCodedAux (st.totalChunks + 1) st.sourceChunks
        st.recoveredChunkCount st.codedPackets :=
  processCodedAux_stable st.totalChunks fuel st.sourceChunks
    st.recoveredChunkCount st.codedPackets (missingSet_card_le_total st h)
    hfuel

theorem foldl_peel_filter (sc : List (Nat × Bytes)) (m : Nat)
    (l : List Nat) (init : Bytes) :
    l.foldl (fun r idx => if idx = m then r else peelFun sc r idx) init =
      (l.filter (fun i => i != m)).foldl (peelFun sc) init := by
  induction l generalizing init with
  | nil => rfl
  | cons x rest ih =>
    rw [List.foldl_cons, List.filter_cons]
    by_cases hx : x = m
    · rw [if_pos hx, if_neg (by simp [hx])]
      exact ih init
    · rw [if_neg hx, if_pos (by simp [hx]), List.foldl_cons]
      exact ih (peelFun sc init x)

theorem peelValue_eq_claimPeel (sc : List (Nat × Bytes)) (p : CodedP)
    (m : Nat) : peelValue sc p m = claimPeel sc p m :=
  foldl_peel_filter sc m p.sourceChunks p.xorData

theorem xorBytes_nil_right (a : Bytes) : xorBytes a [] = a := by
  simp [xorBytes]

theorem xorBytes_nil_left (b : Bytes) : xorBytes [] b = [] := by
  simp [xorBytes]

theorem xorBytes_cons (x y : Nat) (a b : Bytes) :
    xorBytes (x :: a) (y :: b) = Nat.xor x y :: xorBytes a b := by
  simp [xorBytes]

theorem scanStep_recover_eq (sc : List (Nat × Bytes)) (cnt : Nat)
    (kept : List CodedP) (prog : Bool) (p : CodedP) (m : Nat)
    (hm : missingOf sc p = [m]) :
    scanStep { sc := sc, cnt := cnt, kept := kept, prog := prog } p =
      { sc := insertChunk sc m (claimPeel sc p m), cnt := cnt + 1,
        kept := kept, prog := true } := by
  have hm2 : missingOf
      ({ sc := sc, cnt := cnt, kept := kept, prog := prog } : ScanAcc).sc p
        = [m] := hm
  unfold scanStep
  rw [hm2]
  simp [peelValue_eq_claimPeel]

/-- C2 (amended).  The XOR-peeling loop of
`FountainDecoder::process_coded`: (1) `xorBytes` is byte-wise XOR
limited to the shorter operand, the tail of the accumulator kept; (2) a
scanned packet with exactly one missing index `m` is removed and chunk
`m` is stored as the XOR of the packet's payload with all its other
(known) chunks, with progress recorded; (3) a pending packet that is one
chunk short when the loop starts has its missing chunk present when the
loop returns; (4) at exit no pending packet has fewer than two missing
indices; (5) when every index mentioned by a pending packet is below
`chunks_count`, `chunks_count + 1` scans suffice: any larger fuel
computes the same result (the claim's original "any uniquely solvable
set of packets is decoded" is refuted by
`peeling_unique_not_found_counterexample`). -/

theorem peeling_step_and_loop :
    (∀ (a b : Bytes) (x y : Nat), xorBytes a [] = a ∧ xorBytes [] b = [] ∧
       xorBytes (x :: a) (y :: b) = Nat.xor x y :: xorBytes a b) ∧
    (∀ (sc : List (Nat × Bytes)) (cnt : Nat) (kept : List CodedP)
       (prog : Bool) (p : CodedP) (m : Nat), missingOf sc p = [m] →
       scanStep { sc := sc, cnt := cnt, kept := kept, prog := prog } p =
         { sc := insertChunk sc m (claimPeel sc p m), cnt := cnt + 1,
           kept := kept, prog := true }) ∧
    (∀ (st : FState) (p : CodedP) (m : Nat), p ∈ st.codedPackets →
       missingOf st.sourceChunks p = [m] →
       (lookupChunk (processCodedF st).sourceChunks m).isSome) ∧
    (∀ (st : FState), ∀ q ∈ (processCodedF st).codedPackets,
       2 ≤ (missingOf (processCodedF st).sourceChunks q).length) ∧
    (∀ (st : FState) (fuel : Nat),
       (∀ p ∈ st.codedPackets, ∀ i ∈ p.sourceChunks, i < st.totalChunks) →
       st.totalChunks + 1 ≤ fuel →
       processCodedAux fuel st.sourceChunks st.recoveredChunkCount
           st.codedPackets =
         processCodedAux (st.totalChunks + 1) st.sourceChunks
           st.recoveredChunkCount st.codedPackets) := by
  refine ⟨?_, ?_, ?_, ?_, ?_⟩
  · intro a b x y
    exact ⟨xorBytes_nil_right a, xorBytes_nil_left b, xorBytes_cons x y a b⟩
  · intro sc cnt kept prog p m hm
    exact scanStep_recover_eq sc cnt kept prog p m hm
  · intro st p m hp hm
    exact processCodedF_recovers st p m hp hm
  · intro st q hq
    exact processCodedF_fixedPoint st q hq
  · intro st fuel h hfuel
    exact processCoded_pass_bound st h fuel hfuel

/-- Witness for `peeling_step_and_loop`: on the concrete decoder holding
chunks 0 and 2 with `XOR(0,1,2)` pending, the loop recovers chunk 1. -/

theorem peeling_step_and_loop_witness :
    (lookupChunk (processCodedF c2wstate).sourceChunks 1).isSome :=
  peeling_step_and_loop.2.2.1 c2wstate c2pk 1
    (by simp [c2wstate]) (by decide)

/-- C2 counterexample.  The three coded packets `XOR(0,1) = [3]`,
`XOR(1,2) = [1]`, `XOR(0,1,2) = [0]` determine the three source chunks
uniquely (the single solution is `[1], [2], [3]`), yet after ingesting
all three packets the decoder has recovered nothing, and running the
peeling loop again changes nothing: a uniquely solvable packet set on
which peeling never finds the solution. -/

theorem peeling_unique_not_found_counterexample :
    (∃! t : Nat × Nat × Nat,
       c2d1.xorData = some [t.1 ^^^ t.2.1] ∧
       c2d2.xorData = some [t.2.1 ^^^ t.2.2] ∧
       c2d3.xorData = some [t.1 ^^^ (t.2.1 ^^^ t.2.2)]) ∧
    c2state.sourceChunks = [] ∧ c2state.recoveredChunkCount = 0 ∧
    processCodedF c2state = c2state := by
  have hkey : ∀ a b : Nat, a ^^^ (a ^^^ b) = b := by
    intro a b
    rw [← Nat.xor_assoc, Nat.xor_self, Nat.zero_xor]
  refine ⟨⟨(1, 2, 3), by refine ⟨?_, ?_, ?_⟩ <;> decide, ?_⟩,
    by decide, by decide, by decide⟩
  rintro ⟨c0, c1, c2⟩ ⟨h1, h2, h3⟩
  simp only [c2d1, c2d2, c2d3, Option.some.injEq, List.cons.injEq,
    and_true] at h1 h2 h3
  have e1 : c0 ^^^ c1 = 3 := h1.symm
  have e2 : c1 ^^^ c2 = 1 := h2.symm
  have e3 : c0 ^^^ (c1 ^^^ c2) = 0 := h3.symm
  rw [e2] at e3
  have hc0 : c0 = 1 := Nat.xor_eq_zero.mp e3
  rw [hc0] at e1
  have hc1 : c1 = 2 := by
    have hk := hkey 1 c1
    rw [e1] at hk
    rw [← hk]
    decide
  rw [hc1] at e2
  have hc2 : c2 = 3 := by
    have hk := hkey 2 c2
    rw [e2] at hk
    rw [← hk]
    decide
  simp [hc0, hc1, hc2]

/-! ## Supporting lemmas: finalization (`decode_qr_files.rs`) -/

theorem finalizeF_emit_char (st : FState) (dir : Bytes) (data : Bytes)
    (tr : List FsOp) (h : finalizeF st dir = (some data, tr)) :
    isCompleteF st = true ∧
    (∀ i < st.totalChunks, (lookupChunk st.sourceChunks i).isSome) ∧
    ∃ md, st.metaData = some md ∧
      data = combineChunksF st md.fileSize ∧
      tr = [FsOp.createDirAll dir,
            FsOp.writeFile (joinPath dir md.fileName) data] ∧
      (∀ c, md.fileChecksum = some c → calculateChecksumF data = c) := by
  unfold finalizeF at h
  split at h
  · exact absurd h (by simp)
  · rename_i hcomplete
    split at h
    · exact absurd h (by simp)
    · rename_i hall
      refine ⟨by simpa using hcomplete, ?_, ?_⟩
      · intro i hi
        have hall2 : (List.range st.totalChunks).all
            (fun i => (lookupChunk st.sourceChunks i).isSome) = true := by
          by_contra hno
          exact hall (by simpa using hno)
        simpa using List.all_eq_true.mp hall2 i (List.mem_range.mpr hi)
      · split at h
        · exact absurd h (by simp)
        · rename_i md hmd
          refine ⟨md, hmd, ?_⟩
          split at h
          · rename_i c hc
            split at h
            · rename_i heq
              have hd : data = combineChunksF st md.fileSize := by
                have := congrArg Prod.fst h
                simp at this
                exact this.symm
              have ht : tr = [FsOp.createDirAll dir,
                  FsOp.writeFile (joinPath dir md.fileName)
                    (combineChunksF st md.fileSize)] := by
                have := congrArg Prod.snd h
                simp at this
                exact this.symm
              refine ⟨hd, by rw [ht, hd], ?_⟩
              intro c' hc'
              rw [hc] at hc'
              cases hc'
              rw [hd]
              exact heq
            · exact absurd h (by simp)
          · rename_i hc
            have hd : data = combineChunksF st md.fileSize := by
              have := congrArg Prod.fst h
              simp at this
              exact this.symm
            have ht : tr = [FsOp.createDirAll dir,
                FsOp.writeFile (joinPath dir md.fileName)
                  (combineChunksF st md.fileSize)] := by
              have := congrArg Prod.snd h
              simp at this
              exact this.symm
            refine ⟨hd, by rw [ht, hd], ?_⟩
            intro c' hc'
            rw [hc] at hc'
            cases hc'

theorem finalizeF_none_trace (st : FState) (dir : Bytes) (tr : List FsOp)
    (h : finalizeF st dir = (none, tr)) : tr = [] := by
  unfold finalizeF at h
  split at h
  · injection h with h1 h2; exact h2.symm
  · split at h
    · injection h with h1 h2; exact h2.symm
    · split at h
      · injection h with h1 h2; exact h2.symm
      · split at h
        · split at h
          · exact absurd h (by simp)
          · injection h with h1 h2; exact h2.symm
        · exact absurd h (by simp)

theorem finalize_incomplete_none (st : FState) (dir : Bytes) (i : Nat)
    (hc : isCompleteF st = true) (hi : i < st.totalChunks)
    (hnone : lookupChunk st.sourceChunks i = none) :
    finalizeF st dir = (none, []) := by
  unfold finalizeF
  rw [if_neg (by simp [hc])]
  rw [if_pos (by
    intro hall
    have h2 := List.all_eq_true.mp hall i (List.mem_range.mpr hi)
    rw [hnone] at h2
    simp at h2)]

theorem addPacket_counts_unchecked (st : FState) (pid idx : Nat)
    (data : Bytes) (hinit : st.initialized = true)
    (habs : lookupChunk st.sourceChunks idx = none) :
    ((addPacketF st (sysPacket pid idx data)).1).recoveredChunkCount =
      st.recoveredChunkCount + 1 := by
  unfold addPacketF sysPacket
  simp [hinit, addSystematicF, habs]

theorem mReconstruct_emit_char (d : MFileDec) (data : Bytes) (md : MMeta)
    (hmd : d.metadata = some md) (h : mReconstructFile d = some data) :
    data = mCombine d md.fileSize ∧ mChecksumOk d md = true ∧
    (∀ i < d.totalChunks, (lookupChunk d.sourceChunks i).isSome) := by
  unfold mReconstructFile at h
  split at h
  · exact absurd h (by simp)
  · rename_i md2 hmd2
    rw [hmd] at hmd2
    injection hmd2 with hmd3
    subst hmd3
    split at h
    · exact absurd h (by simp)
    · rename_i hall
      split at h
      · exact absurd h (by simp)
      · rename_i hok
        split at h
        · exact absurd h (by simp)
        · refine ⟨?_, ?_, ?_⟩
          · injection h with h2
            exact h2.symm
          · by_contra hno
            exact hok (by simpa using hno)
          · intro i hi
            have hall2 : (List.range d.totalChunks).all
                (fun i => (lookupChunk d.sourceChunks i).isSome) = true := by
              by_contra hno
              exact hall (by simpa using hno)
            simpa using List.all_eq_true.mp hall2 i (List.mem_range.mpr hi)

/-- C10.  Finalization never emits a file with a missing chunk:
(1) an emitted file implies every index in `0 .. total_chunks` is
present; (2) when the counter has reached `total_chunks` but some index
below `total_chunks` is absent, `finalize` returns without writing
anything; (3) the premise is reachable because the systematic ingest of
`add_packet` counts any fresh chunk index — with no
`index < chunks_count` bound. -/

theorem finalize_never_emits_missing_chunk :
    (∀ (st : FState) (dir data : Bytes) (tr : List FsOp),
       finalizeF st dir = (some data, tr) →
       ∀ i < st.totalChunks, (lookupChunk st.sourceChunks i).isSome) ∧
    (∀ (st : FState) (dir : Bytes) (i : Nat), isCompleteF st = true →
       i < st.totalChunks → lookupChunk st.sourceChunks i = none →
       finalizeF st dir = (none, [])) ∧
    (∀ (st : FState) (pid idx : Nat) (data : Bytes),
       st.initialized = true → lookupChunk st.sourceChunks idx = none →
       ((addPacketF st (sysPacket pid idx data)).1).recoveredChunkCount =
         st.recoveredChunkCount + 1) := by
  refine ⟨?_, ?_, ?_⟩
  · intro st dir data tr h i hi
    exact (finalizeF_emit_char st dir data tr h).2.1 i hi
  · intro st dir i hc hi hnone
    exact finalize_incomplete_none st dir i hc hi hnone
  · intro st pid idx data hinit habs
    exact addPacket_counts_unchecked st pid idx data hinit habs

/-- Witness for `finalize_never_emits_missing_chunk`: the decoder
`c10state` counts 3 of 3 chunks (index 5 was counted while out of
range), yet `finalize` writes nothing because chunk 0 is missing; and
ingesting index 7 into a fresh 3-chunk decoder bumps the counter. -/

theorem finalize_never_emits_missing_chunk_witness :
    finalizeF c10state (strBytes "out") = (none, []) ∧
    ((addPacketF (initializeF c2meta) (sysPacket 0 7 [9])).1
      ).recoveredChunkCount = 1 :=
  ⟨finalize_never_emits_missing_chunk.2.1 c10state (strBytes "out") 0
    (by decide) (by decide) (by decide),
   finalize_never_emits_missing_chunk.2.2 (initializeF c2meta) 0 7 [9]
    (by decide) (by decide)⟩

theorem calculateChecksumF_eq_claim (data : Bytes) :
    calculateChecksumF data = claimChecksum data := by
  show List.take (min 8 (hexBytes (fnv1a32 data)).length)
    (hexBytes (fnv1a32 data)) = List.take 8 (hexBytes (fnv1a32 data))
  rcases le_total 8 (hexBytes (fnv1a32 data)).length with h | h
  · rw [min_eq_left h]
  · rw [min_eq_right h, List.take_length, List.take_of_length_le h]

/-- C3 (amended).  (1) A file emitted by
`FountainDecoder::finalize` (`decode_qr_files.rs`) whose metadata
carries a checksum satisfies the claim's formula
`fnv1a32(bytes)[:8] == metadata.file_checksum` (unpadded lowercase hex);
(2) on a checksum mismatch nothing is emitted; (3) the `main.rs`
decoder (`FileDecoder::reconstruct_file`) instead guarantees the
zero-padded 8-character rendering `calculateFileChecksumM`, which
differs from the claim's formula when the 32-bit hash is below
`0x10000000` (see `checksum_padding_counterexample`). -/

theorem checksum_contract :
    (∀ (st : FState) (dir data : Bytes) (tr : List FsOp) (md : FMeta)
       (c : Bytes), st.metaData = some md → md.fileChecksum = some c →
       finalizeF st dir = (some data, tr) → claimChecksum data = c) ∧
    (∀ (st : FState) (dir : Bytes) (md : FMeta) (c : Bytes),
       st.metaData = some md → md.fileChecksum = some c →
       claimChecksum (combineChunksF st md.fileSize) ≠ c →
       (finalizeF st dir).1 = none) ∧
    (∀ (d : MFileDec) (data : Bytes) (md : MMeta) (c : Bytes),
       d.metadata = some md → md.fileChecksum = some c →
       mReconstructFile d = some data → calculateFileChecksumM data = c) := by
  refine ⟨?_, ?_, ?_⟩
  · intro st dir data tr md c hmd hc h
    rcases finalizeF_emit_char st dir data tr h with ⟨_, _, md2, hmd2, _, _, hck⟩
    rw [hmd] at hmd2
    injection hmd2 with hmd3
    subst hmd3
    rw [← calculateChecksumF_eq_claim]
    exact hck c hc
  · intro st dir md c hmd hc hne
    rcases hres : finalizeF st dir with ⟨o, tr⟩
    cases o with
    | none => rfl
    | some data =>
      exfalso
      rcases finalizeF_emit_char st dir data tr hres with
        ⟨_, _, md2, hmd2, hdata, _, hck⟩
      rw [hmd] at hmd2
      injection hmd2 with hmd3
      subst hmd3
      apply hne
      rw [← hdata, ← calculateChecksumF_eq_claim]
      exact hck c hc
  · intro d data md c hmd hc h
    rcases mReconstruct_emit_char d data md hmd h with ⟨hdata, hok, _⟩
    unfold mChecksumOk at hok
    rw [hc] at hok
    rw [hdata]
    exact of_decide_eq_true hok

/-- Witness for `checksum_contract`: finalizing the complete decoder for
`ABC` emits it, and the claim formula reproduces its stored checksum
`5c842f6b`. -/

theorem checksum_contract_witness :
    claimChecksum (strBytes "ABC") = strBytes "5c842f6b" :=
  checksum_contract.1 c3fstate (strBytes "out") (strBytes "ABC")
    [FsOp.createDirAll (strBytes "out"),
     FsOp.writeFile (joinPath (strBytes "out") (strBytes "f.bin"))
       (strBytes "ABC")]
    c3fmd (strBytes "5c842f6b") (by decide) (by decide) (by decide)

/-- C3 counterexample.  The `main.rs` decoder emits the one-byte file
`[1]` against the zero-padded checksum `040c5b8c`, but the claim's
formula — unpadded lowercase hex truncated to 8 — yields `40c5b8c`, so
the emitted file does **not** satisfy
`fnv1a32(bytes)[:8] == metadata.file_checksum` as claimed. -/

theorem checksum_padding_counterexample :
    mReconstructFile c3dec = some [1] ∧
    c3dec.metadata = some c3md ∧
    c3md.fileChecksum = some (strBytes "040c5b8c") ∧
    claimChecksum [1] ≠ strBytes "040c5b8c" ∧
    claimChecksum [1] = strBytes "40c5b8c" :=
  ⟨by decide, by decide, by decide, by decide, by decide⟩

/-- C5 (amended).  Emission is a direct write: on success the
file-system trace of `finalize` is exactly a `create_dir_all` of the
output directory followed by one `fs::write` to the final path
`output_dir/file_name` — no temporary path and no rename — and when
nothing is emitted, nothing at all is written. -/

theorem emission_is_direct_write :
    (∀ (st : FState) (dir data : Bytes) (tr : List FsOp) (md : FMeta),
       st.metaData = some md → finalizeF st dir = (some data, tr) →
       tr = [FsOp.createDirAll dir,
             FsOp.writeFile (joinPath dir md.fileName) data] ∧
       ∀ s t : Bytes, FsOp.renamePath s t ∉ tr) ∧
    (∀ (st : FState) (dir : Bytes) (tr : List FsOp),
       finalizeF st dir = (none, tr) → tr = []) := by
  constructor
  · intro st dir data tr md hmd h
    rcases finalizeF_emit_char st dir data tr h with ⟨_, _, md2, hmd2, _, htr, _⟩
    rw [hmd] at hmd2
    injection hmd2 with hmd3
    subst hmd3
    refine ⟨htr, ?_⟩
    intro s t hmem
    rw [htr] at hmem
    simp at hmem
  · intro st dir tr h
    exact finalizeF_none_trace st dir tr h

/-- Witness for `emission_is_direct_write`: finalizing the complete
decoder for `ABC` performs exactly the directory creation and the single
direct write. -/

theorem emission_is_direct_write_witness :
    [FsOp.createDirAll (strBytes "out"),
     FsOp.writeFile (joinPath (strBytes "out") (strBytes "f.bin"))
       (strBytes "ABC")] =
      [FsOp.createDirAll (strBytes "out"),
       FsOp.writeFile (joinPath (strBytes "out") (strBytes "f.bin"))
         (strBytes "ABC")] ∧
    ∀ s t : Bytes, FsOp.renamePath s t ∉
      [FsOp.createDirAll (strBytes "out"),
       FsOp.writeFile (joinPath (strBytes "out") (strBytes "f.bin"))
         (strBytes "ABC")] :=
  emission_is_direct_write.1 c5state (strBytes "out") (strBytes "ABC")
    [FsOp.createDirAll (strBytes "out"),
     FsOp.writeFile (joinPath (strBytes "out") (strBytes "f.bin"))
       (strBytes "ABC")]
    c5md (by decide) (by decide)

/-- C5 counterexample.  Finalizing the complete decoder for `ABC` writes
the reconstructed bytes directly to the final path
`out/f.bin` — the trace contains a `writeFile` of the final path and no
rename — so the emission is not atomic in the claimed
write-temp-then-rename sense. -/

theorem atomic_emission_counterexample :
    finalizeF c5state (strBytes "out") =
      (some (strBytes "ABC"),
       [FsOp.createDirAll (strBytes "out"),
        FsOp.writeFile (joinPath (strBytes "out") (strBytes "f.bin"))
          (strBytes "ABC")]) ∧
    ¬ atomicEmission (finalizeF c5state (strBytes "out")).2
        (joinPath (strBytes "out") (strBytes "f.bin")) := by
  refine ⟨by decide, ?_⟩
  rintro ⟨hnowrite, tmp, d, hne, hw, hr⟩
  have htr : (finalizeF c5state (strBytes "out")).2 =
      [FsOp.createDirAll (strBytes "out"),
       FsOp.writeFile (joinPath (strBytes "out") (strBytes "f.bin"))
         (strBytes "ABC")] := by decide
  rw [htr] at hr
  simp at hr

/-! ## Supporting lemmas: temporal routing (`main.rs`) -/

theorem lookupFile_update_ne (m : List (Bytes × MFileDec)) (k k2 : Bytes)
    (d : MFileDec) (hne : k2 ≠ k) :
    lookupFile (updateFile m k d) k2 = lookupFile m k2 := by
  induction m with
  | nil => rfl
  | cons kv rest ih =>
    rcases kv with ⟨k', v⟩
    unfold updateFile
    by_cases hk : k = k'
    · rw [if_pos hk]
      unfold lookupFile
      by_cases h2 : k2 = k'
      · exact absurd (h2.trans hk.symm) hne
      · rw [if_neg h2, if_neg h2]
    · rw [if_neg hk]
      unfold lookupFile
      by_cases h2 : k2 = k'
      · rw [if_pos h2, if_pos h2]
      · rw [if_neg h2, if_neg h2]
        exact ih

theorem finalizeFileM_lookup_ne (files : List (Bytes × MFileDec))
    (k : Bytes) (d : MFileDec) (dir : Bytes) (trace : List FsOp)
    (k2 : Bytes) (hne : k2 ≠ k) :
    lookupFile (finalizeFileM files k d dir trace).1 k2 =
      lookupFile files k2 := by
  unfold finalizeFileM
  split
  · rfl
  · split
    · exact lookupFile_update_ne files k k2 _ hne
    · rfl

theorem stepDataM_no_active (st : MState) (dir s : Bytes)
    (h : st.currentActiveFile = none) : stepDataM st dir s = st := by
  unfold stepDataM
  split
  · rfl
  · rw [h]

theorem stepDataM_active_eq (st : MState) (dir s : Bytes) :
    (stepDataM st dir s).currentActiveFile = st.currentActiveFile := by
  unfold stepDataM
  split
  · rfl
  · split
    · rfl
    · split
      · rfl
      · dsimp only
        split <;> rfl

theorem stepDataM_frame (st : MState) (dir s : Bytes) (k k2 : Bytes)
    (hact : st.currentActiveFile = some k) (hne : k2 ≠ k) :
    lookupFile (stepDataM st dir s).files k2 = lookupFile st.files k2 := by
  unfold stepDataM
  split
  · rfl
  · split
    · rfl
    · rename_i key hkey
      rw [hact] at hkey
      injection hkey with hkeyk
      subst hkeyk
      split
      · rfl
      · rename_i d hd
        dsimp only
        split
        · exact (finalizeFileM_lookup_ne _ k _ dir _ k2 hne).trans
            (lookupFile_update_ne st.files k k2 _ hne)
        · exact lookupFile_update_ne st.files k k2 _ hne

theorem not_m_of_d (s : Bytes) (hD : startsWithB (strBytes "D:") s = true) :
    startsWithB (strBytes "M:") s = false := by
  unfold startsWithB at hD ⊢
  rw [show strBytes "D:" = [68, 58] from by decide] at hD
  rw [show strBytes "M:" = [77, 58] from by decide]
  simp only [decide_eq_true_eq] at hD
  simp only [decide_eq_false_iff_not]
  intro hM
  have hD2 : List.take 2 s = [68, 58] := hD
  have hM2 : List.take 2 s = [77, 58] := hM
  rw [hD2] at hM2
  exact absurd hM2 (by decide)

/-- C1.  Temporal routing: (1) every `M` packet that parses sets
`current_active_file` to the key `(file_name, chunks_count)`, keeps a
decoder already stored at that key, and creates a fresh decoder exactly
when the key is unseen; (2) a `D` packet processed with an active file
`k` leaves the decoder of every other key untouched — whatever the
packet's fields are — and leaves the active slot unchanged; (3) every
`D:`-prefixed payload is dispatched through the data-packet path. -/

theorem temporal_routing :
    (∀ (st : MState) (s : Bytes) (md : MMeta), parseMetaM s = some md →
       (stepMetaM st s).currentActiveFile =
           some (fileKey md.fileName md.chunksCount) ∧
         (lookupFile (stepMetaM st s).files
           (fileKey md.fileName md.chunksCount)).isSome ∧
         ((lookupFile st.files (fileKey md.fileName md.chunksCount)).isSome →
           (stepMetaM st s).files = st.files) ∧
         (lookupFile st.files (fileKey md.fileName md.chunksCount) = none →
           (stepMetaM st s).files =
             (fileKey md.fileName md.chunksCount, newFileDec md) ::
               st.files)) ∧
    (∀ (st : MState) (dir s k k2 : Bytes),
       st.currentActiveFile = some k → k2 ≠ k →
       lookupFile (stepDataM st dir s).files k2 = lookupFile st.files k2 ∧
       (stepDataM st dir s).currentActiveFile = st.currentActiveFile) ∧
    (∀ (st : MState) (dir s : Bytes), startsWithB (strBytes "D:") s = true →
       stepQrM dir st s = stepDataM st dir s) := by
  refine ⟨?_, ?_, ?_⟩
  · intro st s md h
    unfold stepMetaM
    rw [h]
    dsimp only
    refine ⟨rfl, ?_, ?_, ?_⟩
    · by_cases hpres :
        (lookupFile st.files (fileKey md.fileName md.chunksCount)).isSome
      · rw [if_pos hpres]
        exact hpres
      · rw [if_neg hpres]
        simp [lookupFile]
    · intro hpres
      rw [if_pos hpres]
    · intro habs
      rw [if_neg (by simp [habs])]
  · intro st dir s k k2 hact hne
    exact ⟨stepDataM_frame st dir s k k2 hact hne,
      stepDataM_active_eq st dir s⟩
  · intro st dir s hD
    unfold stepQrM
    rw [not_m_of_d s hD]
    rw [if_neg (by simp), if_pos hD]

/-- Witness for `temporal_routing`: the representative `M` packet routes
the fresh multiplexer to `f.bin_3`, and a `D` packet processed while
`f.bin_3` is active leaves the decoder stored under `a_1` untouched. -/

theorem temporal_routing_witness :
    (stepMetaM MState.new c1mpkt).currentActiveFile =
      some (fileKey c1md.fileName c1md.chunksCount) ∧
    lookupFile (stepDataM c1dstate (strBytes "out")
        (strBytes "D:0:0:0:3:1:0:QUJD")).files (strBytes "a_1") =
      lookupFile c1dstate.files (strBytes "a_1") :=
  ⟨(temporal_routing.1 MState.new c1mpkt c1md (by decide)).1,
   (temporal_routing.2.1 c1dstate (strBytes "out")
     (strBytes "D:0:0:0:3:1:0:QUJD") (strBytes "f.bin_3") (strBytes "a_1")
     (by decide) (by decide)).1⟩

/-- C6.  A `D` packet arriving while the active-file slot is unset is
rejected with the state unchanged (the parse and routing code has no
panicking path there — every failure is an early `return`), and
processing of the rest of the stream continues from the same state. -/

theorem data_without_active_rejected :
    (∀ (st : MState) (dir s : Bytes), st.currentActiveFile = none →
       stepDataM st dir s = st) ∧
    (∀ (st : MState) (dir s : Bytes) (rest : List Bytes),
       st.currentActiveFile = none →
       startsWithB (strBytes "D:") s = true →
       runStreamM dir st (s :: rest) = runStreamM dir st rest) := by
  constructor
  · intro st dir s h
    exact stepDataM_no_active st dir s h
  · intro st dir s rest h hD
    unfold runStreamM
    rw [List.foldl_cons]
    unfold stepQrM
    rw [not_m_of_d s hD]
    rw [if_neg (by simp), if_pos hD, stepDataM_no_active st dir s h]

/-- Witness for `data_without_active_rejected`: a lone `D` packet leaves
the fresh decoder exactly as it was, and a following `M` packet is then
processed as if the `D` packet had never arrived. -/

theorem data_without_active_rejected_witness :
    stepDataM MState.new (strBytes "out")
        (strBytes "D:1:0:0:3:1:2:QUJD") = MState.new ∧
    runStreamM (strBytes "out") MState.new
        (strBytes "D:1:0:0:3:1:2:QUJD" :: [c1mpkt]) =
      runStreamM (strBytes "out") MState.new [c1mpkt] :=
  ⟨data_without_active_rejected.1 MState.new (strBytes "out")
     (strBytes "D:1:0:0:3:1:2:QUJD") (by decide),
   data_without_active_rejected.2 MState.new (strBytes "out")
     (strBytes "D:1:0:0:3:1:2:QUJD") [c1mpkt] (by decide) (by decide)⟩

/-- C4.  The coded-packet parse of `process_data_packet` (`main.rs`) on
the wire-format packet `D:0:0:0:3:1:0,1,2:QUJD`: the re-joined body is
`0,1,2:QUJD`, and splitting *that* on `,` glues the final source index
to the base64 field, so the parsed source-chunk list is `[0, 1]` — the
final index 2 is dropped (`decode_qr_files.rs`'s variant propagates the
parse error and rejects the whole packet instead) — while the claim and
the wire format say the list is exactly `[0, 1, 2]`. -/

theorem coded_packet_parse_drops_last_index :
    List.intercalate [58] ((splitOnByte 58
        (strBytes "D:0:0:0:3:1:0,1,2:QUJD")).drop 6) =
      strBytes "0,1,2:QUJD" ∧
    parseDataM (strBytes "D:0:0:0:3:1:0,1,2:QUJD") =
      some { packetId := 0, numChunks := 3, chunkCount := 1,
             sourceChunks := [0, 1], xorData := [65, 66, 67],
             systematicChunks := [] } :=
  ⟨by decide, by decide⟩

/-! ## Supporting lemmas: completion criteria -/

theorem ratioGE_iff (a b num : Nat) (hb : 0 < b) :
    ratioGE a b num 100 = true ↔ (num : ℚ) / 100 ≤ (a : ℚ) / (b : ℚ) := by
  unfold ratioGE
  rw [if_neg (by omega), decide_eq_true_eq,
    div_le_div_iff₀ (by norm_num) (by exact_mod_cast hb)]
  constructor
  · intro h
    have h2 : ((num * b : Nat) : ℚ) ≤ ((100 * a : Nat) : ℚ) := by
      exact_mod_cast h
    push_cast at h2
    linarith
  · intro h
    have h2 : ((num * b : Nat) : ℚ) ≤ ((100 * a : Nat) : ℚ) := by
      push_cast
      linarith
    exact_mod_cast h2

theorem ratioGE_mono_95_80 (a b : Nat)
    (h : ratioGE a b 95 100 = true) : ratioGE a b 80 100 = true := by
  unfold ratioGE at h ⊢
  by_cases hb : b = 0
  · rw [if_pos hb] at h ⊢
    exact h
  · rw [if_neg hb] at h ⊢
    rw [decide_eq_true_eq] at h ⊢
    omega

theorem rangeCoverageGE_iff (maxF emf : Nat) :
    rangeCoverageGE maxF emf = true ↔
      (90 : ℚ) / 100 ≤ (maxF : ℚ) / (emf : ℚ) := by
  unfold rangeCoverageGE
  by_cases he : 0 < emf
  · rw [if_pos he, decide_eq_true_eq,
      div_le_div_iff₀ (by norm_num) (by exact_mod_cast he)]
    constructor
    · intro h
      have h2 : ((90 * emf : Nat) : ℚ) ≤ ((100 * maxF : Nat) : ℚ) := by
        exact_mod_cast h
      push_cast at h2
      linarith
    · intro h
      have h2 : ((90 * emf : Nat) : ℚ) ≤ ((100 * maxF : Nat) : ℚ) := by
        push_cast
        linarith
      exact_mod_cast h2
  · rw [if_neg he]
    have hz : emf = 0 := by omega
    subst hz
    simp only [Nat.cast_zero, div_zero]
    constructor
    · intro h
      exact absurd h (by simp)
    · intro h
      norm_num at h

/-- C7.  For a chunk with an existing sidecar and a positive expected
frame count, `determine_completion` judges the chunk complete exactly
when the claim's criteria hold: either clause (a) — frame coverage
≥ 0.95, range coverage ≥ 0.90, the QR-count threshold (300, or 200 for
the last chunk), and frame span ≥ 0.80·expected_max_frame — or clause
(b) — frame coverage ≥ 0.80 together with the QR-count threshold. -/

theorem completion_criteria_equiv (chunkId chunkCount skipFrames
    expectedFrames actualFrames maxFrame minFrame qrCodes : Nat)
    (h : 0 < expectedFrames) :
    determineCompletion chunkId chunkCount skipFrames expectedFrames
        actualFrames maxFrame minFrame qrCodes = true ↔
      claimCompletion chunkId chunkCount skipFrames expectedFrames
        actualFrames maxFrame minFrame qrCodes := by
  unfold determineCompletion claimCompletion
  dsimp only
  rw [Bool.or_eq_true, Bool.and_eq_true, Bool.and_eq_true, Bool.and_eq_true,
    Bool.and_eq_true]
  constructor
  · rintro (⟨h95, h90, hqr, _⟩ | ⟨h80, hqr⟩)
    · exact Or.inr ⟨by
        have := (ratioGE_iff actualFrames expectedFrames 95 h).mp h95
        calc (80 : ℚ) / 100 ≤ 95 / 100 := by norm_num
          _ ≤ _ := this,
        (decide_eq_true_eq).mp hqr⟩
    · exact Or.inr ⟨(ratioGE_iff actualFrames expectedFrames 80 h).mp h80,
        (decide_eq_true_eq).mp hqr⟩
  · rintro (⟨h95, _, hqr, _⟩ | ⟨h80, hqr⟩)
    · refine Or.inr ⟨(ratioGE_iff actualFrames expectedFrames 80 h).mpr ?_,
        decide_eq_true_eq.mpr hqr⟩
      calc (80 : ℚ) / 100 ≤ 95 / 100 := by norm_num
        _ ≤ _ := h95
    · exact Or.inr ⟨(ratioGE_iff actualFrames expectedFrames 80 h).mpr h80,
        decide_eq_true_eq.mpr hqr⟩

/-- Witness for `completion_criteria_equiv`: a non-terminal chunk with
96 of 100 expected frames, full range, 350 QR codes and full span is
judged complete. -/

theorem completion_criteria_equiv_witness :
    determineCompletion 0 4 0 100 96 95 1 350 = true ↔
      claimCompletion 0 4 0 100 96 95 1 350 :=
  completion_criteria_equiv 0 4 0 100 96 95 1 350 (by decide)

theorem dedup_seen_aux (obs : List (Nat × Bytes)) :
    ∀ (st : DedupState) (p : Bytes),
      p ∈ (obs.foldl dedupStep st).seen ↔
        p ∈ st.seen ∨ ∃ f, (f, p) ∈ obs := by
  induction obs with
  | nil => intro st p; simp
  | cons ob rest ih =>
    intro st p
    rw [List.foldl_cons, ih]
    have hstep : p ∈ (dedupStep st ob).seen ↔ p ∈ st.seen ∨ p = ob.2 := by
      unfold dedupStep
      split
      · rename_i hmem
        constructor
        · exact fun h => Or.inl h
        · rintro (h | rfl)
          · exact h
          · exact hmem
      · simp [List.mem_cons, or_comm]
    rw [hstep]
    constructor
    · rintro ((h | rfl) | ⟨f, hf⟩)
      · exact Or.inl h
      · exact Or.inr ⟨ob.1, by simp⟩
      · exact Or.inr ⟨f, List.mem_cons_of_mem _ hf⟩
    · rintro (h | ⟨f, hf⟩)
      · exact Or.inl (Or.inl h)
      · rcases List.mem_cons.mp hf with h1 | h1
        · left; right
          simp [← h1]
        · exact Or.inr ⟨f, h1⟩

theorem dedup_emitted_aux (obs : List (Nat × Bytes)) :
    ∀ (st : DedupState) (e : Nat × Bytes),
      e ∈ (obs.foldl dedupStep st).emitted →
        e ∈ st.emitted ∨ e ∈ obs := by
  induction obs with
  | nil => intro st e h; exact Or.inl (by simpa using h)
  | cons ob rest ih =>
    intro st e h
    rw [List.foldl_cons] at h
    rcases ih (dedupStep st ob) e h with h1 | h1
    · unfold dedupStep at h1
      split at h1
      · exact Or.inl h1
      · rcases List.mem_append.mp h1 with h2 | h2
        · exact Or.inl h2
        · have he : e = ob := List.mem_singleton.mp h2
          subst he
          exact Or.inr (List.mem_cons_self e rest)
    · exact Or.inr (List.mem_cons_of_mem _ h1)

/-- C8 (amended).  The per-run deduplication set of the extraction loop
(`seen_qr_data`) suppresses exact-payload duplicates for the entire run
with no eviction: after processing any observation stream, the set
contains precisely the payloads that occurred anywhere in the stream
(not only those within a `2 × fps` window), and everything emitted is an
observation of the stream. -/

theorem dedup_seen_is_all_payloads :
    (∀ (obs : List (Nat × Bytes)) (p : Bytes),
       p ∈ (dedupRun obs).seen ↔ ∃ f, (f, p) ∈ obs) ∧
    (∀ (obs : List (Nat × Bytes)) (e : Nat × Bytes),
       e ∈ (dedupRun obs).emitted → e ∈ obs) := by
  constructor
  · intro obs p
    rw [show dedupRun obs = obs.foldl dedupStep
      { seen := [], emitted := [], dups := 0 } from rfl,
      dedup_seen_aux obs]
    simp
  · intro obs e h
    rcases dedup_emitted_aux obs
      { seen := [], emitted := [], dups := 0 } e h with h1 | h1
    · exact absurd h1 (by simp)
    · exact h1

/-- Witness for `dedup_seen_is_all_payloads`: the first occurrence of
payload `a` is emitted and is an observation of the stream. -/

theorem dedup_seen_is_all_payloads_witness :
    (0, strBytes "a") ∈ [(0, strBytes "a"), (5, strBytes "b")] :=
  dedup_seen_is_all_payloads.2 [(0, strBytes "a"), (5, strBytes "b")]
    (0, strBytes "a") (by decide)

/-- C8 counterexample.  With `fps = 1` (window `W = 2`), after the
stream that sees payload `a` only at frame 0 and then payload `b` at
frame 5, payload `a` is still in the deduplication set although its only
observation is far outside the last `W` frames: no sliding-window
eviction exists. -/

theorem dedup_no_window_counterexample :
    ¬ dedupWindowProperty [(0, strBytes "a"), (5, strBytes "b")] 1 5 := by
  unfold dedupWindowProperty
  decide

/-! ## Supporting lemmas: chunk planning -/

theorem splitByCount_length (duration : ℚ) (n : Nat) :
    (splitByCount duration n).length = n := by
  simp [splitByCount]

theorem splitByCount_isPlan (duration : ℚ) (n : Nat)
    (hdur : 0 < duration) (hn : 0 < n) :
    isChunkPlanOf (splitByCount duration n) duration := by
  have hnQ : (0 : ℚ) < (n : ℚ) := by exact_mod_cast hn
  set d := duration / (n : ℚ) with hd
  have hd0 : 0 < d := div_pos hdur hnQ
  have hnd : (n : ℚ) * d = duration := by
    rw [hd]
    field_simp
  refine ⟨?_, ?_, ?_, ?_⟩
  · rw [List.chain'_iff_get]
    intro i hi
    rw [splitByCount_length] at hi
    simp only [splitByCount, List.get_eq_getElem, List.getElem_map,
      List.getElem_range]
    rw [if_neg (by omega)]
    push_cast
    ring
  · rw [List.pairwise_iff_getElem]
    intro i j hi hj hij
    rw [splitByCount_length] at hi hj
    simp only [splitByCount, List.getElem_map, List.getElem_range]
    have hne : i ≠ n - 1 := by omega
    rw [if_neg hne]
    have hij2 : ((i : ℚ) + 1) ≤ (j : ℚ) := by exact_mod_cast hij
    exact mul_le_mul_of_nonneg_right hij2 hd0.le
  · intro c hc
    rcases List.mem_map.mp hc with ⟨i, hi, rfl⟩
    have hin : i < n := List.mem_range.mp hi
    dsimp only
    by_cases hlast : i = n - 1
    · rw [if_pos hlast]
      calc (i : ℚ) * d ≤ (n : ℚ) * d := by
            apply mul_le_mul_of_nonneg_right _ hd0.le
            exact_mod_cast hin.le
        _ = duration := hnd
    · rw [if_neg hlast]
      have : (i : ℚ) ≤ (i : ℚ) + 1 := by linarith
      exact mul_le_mul_of_nonneg_right this hd0.le
  · intro x
    constructor
    · rintro ⟨c, hc, hstart, hstop⟩
      rcases List.mem_map.mp hc with ⟨i, hi, rfl⟩
      have hin : i < n := List.mem_range.mp hi
      dsimp only at hstart hstop
      constructor
      · have h0 : (0 : ℚ) ≤ (i : ℚ) * d :=
          mul_nonneg (Nat.cast_nonneg i) hd0.le
        linarith
      · by_cases hlast : i = n - 1
        · rw [if_pos hlast] at hstop
          exact hstop
        · rw [if_neg hlast] at hstop
          have hle : ((i : ℚ) + 1) * d ≤ (n : ℚ) * d := by
            apply mul_le_mul_of_nonneg_right _ hd0.le
            exact_mod_cast Nat.succ_le_of_lt hin
          rw [hnd] at hle
          linarith
    · rintro ⟨hx0, hxd⟩
      have hqnn : (0 : ℚ) ≤ x / d := div_nonneg hx0 hd0.le
      have hiltn : ⌊x / d⌋₊ < n := by
        rw [Nat.floor_lt hqnn, div_lt_iff₀ hd0, hnd]
        exact hxd
      refine ⟨_, List.mem_map.mpr ⟨⌊x / d⌋₊,
        List.mem_range.mpr hiltn, rfl⟩, ?_, ?_⟩
      · dsimp only
        rw [show ((⌊x / d⌋₊ : ℚ) * d ≤ x) = ((⌊x / d⌋₊ : ℚ) ≤ x / d) from
          by rw [eq_iff_iff, le_div_iff₀ hd0]]
        exact Nat.floor_le hqnn
      · dsimp only
        by_cases hlast : ⌊x / d⌋₊ = n - 1
        · rw [if_pos hlast]
          exact hxd
        · rw [if_neg hlast]
          have hlt : x / d < (⌊x / d⌋₊ : ℚ) + 1 := Nat.lt_floor_add_one _
          rw [div_lt_iff₀ hd0] at hlt
          linarith

theorem splitByDuration_length (duration dpc : ℚ) :
    (splitByDuration duration dpc).length = Nat.ceil (duration / dpc) := by
  simp [splitByDuration]

theorem splitByDuration_isPlan (duration dpc : ℚ)
    (_hdur : 0 ≤ duration) (hd0 : 0 < dpc) :
    isChunkPlanOf (splitByDuration duration dpc) duration := by
  set n := Nat.ceil (duration / dpc) with hn
  have hdur2 : duration ≤ (n : ℚ) * dpc := by
    rw [← div_le_iff₀ hd0]
    exact Nat.le_ceil _
  refine ⟨?_, ?_, ?_, ?_⟩
  · rw [List.chain'_iff_get]
    intro i hi
    rw [splitByDuration_length] at hi
    simp only [splitByDuration, List.get_eq_getElem, List.getElem_map,
      List.getElem_range]
    have hlt : ((i : ℚ) + 1) * dpc < duration := by
      have h1 : i + 1 < n := by omega
      have h2 : ((i + 1 : ℕ) : ℚ) < duration / dpc := Nat.lt_ceil.mp h1
      push_cast at h2
      rw [lt_div_iff₀ hd0] at h2
      exact h2
    rw [min_eq_left hlt.le]
    push_cast
    ring
  · rw [List.pairwise_iff_getElem]
    intro i j hi hj hij
    rw [splitByDuration_length] at hi hj
    simp only [splitByDuration, List.getElem_map, List.getElem_range]
    refine le_trans (min_le_left _ _) ?_
    have hij2 : ((i : ℚ) + 1) ≤ (j : ℚ) := by exact_mod_cast hij
    exact mul_le_mul_of_nonneg_right hij2 hd0.le
  · intro c hc
    rcases List.mem_map.mp hc with ⟨i, hi, rfl⟩
    have hin : i < n := List.mem_range.mp hi
    dsimp only
    refine le_min ?_ ?_
    · have : (i : ℚ) ≤ (i : ℚ) + 1 := by linarith
      exact mul_le_mul_of_nonneg_right this hd0.le
    · have h2 : (i : ℚ) < duration / dpc := Nat.lt_ceil.mp hin
      rw [lt_div_iff₀ hd0] at h2
      exact h2.le
  · intro x
    constructor
    · rintro ⟨c, hc, hstart, hstop⟩
      rcases List.mem_map.mp hc with ⟨i, hi, rfl⟩
      dsimp only at hstart hstop
      constructor
      · have h0 : (0 : ℚ) ≤ (i : ℚ) * dpc :=
          mul_nonneg (Nat.cast_nonneg i) hd0.le
        linarith
      · exact lt_of_lt_of_le hstop (min_le_right _ _)
    · rintro ⟨hx0, hxd⟩
      have hqnn : (0 : ℚ) ≤ x / dpc := div_nonneg hx0 hd0.le
      have hiltn : ⌊x / dpc⌋₊ < n := by
        rw [Nat.floor_lt hqnn, div_lt_iff₀ hd0]
        exact lt_of_lt_of_le hxd hdur2
      refine ⟨_, List.mem_map.mpr ⟨⌊x / dpc⌋₊,
        List.mem_range.mpr hiltn, rfl⟩, ?_, ?_⟩
      · dsimp only
        rw [show ((⌊x / dpc⌋₊ : ℚ) * dpc ≤ x) =
          ((⌊x / dpc⌋₊ : ℚ) ≤ x / dpc) from
          by rw [eq_iff_iff, le_div_iff₀ hd0]]
        exact Nat.floor_le hqnn
      · dsimp only
        refine lt_min ?_ hxd
        have hlt : x / dpc < (⌊x / dpc⌋₊ : ℚ) + 1 := Nat.lt_floor_add_one _
        rw [div_lt_iff₀ hd0] at hlt
        exact hlt

/-- C9.  Chunk-plan invariant: for a positive duration and a positive
chunk count, `split_by_count` produces — and for a positive per-chunk
duration, `split_by_duration` produces — an ordered sequence of
contiguous half-open intervals, pairwise disjoint and sorted, whose
union is exactly `[0, duration)`. -/

theorem chunk_plan_partition :
    (∀ (duration : ℚ) (n : Nat), 0 < duration → 0 < n →
       isChunkPlanOf (splitByCount duration n) duration) ∧
    (∀ (duration dpc : ℚ), 0 ≤ duration → 0 < dpc →
       isChunkPlanOf (splitByDuration duration dpc) duration) :=
  ⟨fun duration n hdur hn => splitByCount_isPlan duration n hdur hn,
   fun duration dpc hdur hd0 => splitByDuration_isPlan duration dpc hdur hd0⟩

/-- Witness for `chunk_plan_partition`: a 10-second video split into 4
chunks is a partition of `[0, 10)`. -/

theorem chunk_plan_partition_witness :
    isChunkPlanOf (splitByCount 10 4) 10 :=
  chunk_plan_partition.1 10 4 (by norm_num) (by norm_num)
